import Mathlib

/-!
Verification of the QRSDP synthetic-exchange reader and book-replay engine.

The definitions below are a shallow embedding of the Python sources:
- `src/notebooks/book_replay.py` (`_MiniBook` and its operations),
- `src/notebooks/qrsdp_reader.py` (`read_header`, `iter_chunks`, manifest
  iteration with date filters).

Python integers are modelled by `Int` (depths, prices) or `Nat` (counts,
byte values); byte strings by `List Nat` with entries < 256; fallible
operations by `Except`/sum types.
-/

namespace QRSDP

/-- One price level of the replay book: `_Level` in book_replay.py. -/
structure Level where
  price : Int
  depth : Int
deriving DecidableEq, Repr

/-- The replay book state: `_MiniBook` in book_replay.py.
`num_levels` and `initial_depth` are the fields set in `__init__`;
`bids` and `asks` are the two fixed-size level arrays. -/
structure MiniBook where
  num_levels : Nat
  initial_depth : Int
  bids : List Level
  asks : List Level
deriving DecidableEq, Repr

/-- `self.bids[0].price if self.bids else 0` — the head price with Python's
0 default for an empty list. -/
def headPrice (l : List Level) : Int :=
  match l with
  | [] => 0
  | x :: _ => x.price

/-- Head depth of a side, 0 for an empty list. -/
def headDepth (l : List Level) : Int :=
  match l with
  | [] => 0
  | x :: _ => x.depth

/-- `_MiniBook.__init__`: `half = initial_spread_ticks // 2`,
`best_bid = p0 - half`, `best_ask = p0 + initial_spread_ticks - half`,
`bids[k] = (best_bid - k, initial_depth)`, `asks[k] = (best_ask + k, initial_depth)`.
Python `//` is floor division, hence `Int.fdiv`. -/
def mkBook (p0 : Int) (levels_per_side : Nat) (initial_spread_ticks : Int)
    (initial_depth : Int) : MiniBook :=
  let half := Int.fdiv initial_spread_ticks 2
  let best_bid := p0 - half
  let best_ask := p0 + initial_spread_ticks - half
  { num_levels := levels_per_side
    initial_depth := initial_depth
    bids := (List.range levels_per_side).map
      (fun (k : Nat) => { price := best_bid - (k : Int), depth := initial_depth })
    asks := (List.range levels_per_side).map
      (fun (k : Nat) => { price := best_ask + (k : Int), depth := initial_depth }) }

/-- `_MiniBook._bid_index`: `-1` for an empty side, else
`bids[0].price - price` when it lies in `[0, num_levels)`, else `-1`. -/
def bidIndex (b : MiniBook) (price : Int) : Int :=
  match b.bids with
  | [] => -1
  | x :: _ =>
    let idx := x.price - price
    if 0 ≤ idx ∧ idx < (b.num_levels : Int) then idx else -1

/-- `_MiniBook._ask_index`: `-1` for an empty side, else
`price - asks[0].price` when it lies in `[0, num_levels)`, else `-1`. -/
def askIndex (b : MiniBook) (price : Int) : Int :=
  match b.asks with
  | [] => -1
  | x :: _ =>
    let idx := price - x.price
    if 0 ≤ idx ∧ idx < (b.num_levels : Int) then idx else -1

/-- Depth stored at slot `i` (0 when out of range; in-source accesses are
guarded by the index check). -/
def depthAt (l : List Level) (i : Nat) : Int :=
  match l[i]? with
  | some lv => lv.depth
  | none => 0

/-- Replace the depth stored at slot `i`, keeping the price. -/
def setDepthAt : List Level → Nat → Int → List Level
  | [], _, _ => []
  | x :: xs, 0, d => { price := x.price, depth := d } :: xs
  | x :: xs, i + 1, d => x :: setDepthAt xs i d

/-- `self.bids[idx].depth += qty`. -/
def addDepthAt (l : List Level) (i : Nat) (qty : Int) : List Level :=
  setDepthAt l i (depthAt l i + qty)

/-- `self.asks[0].depth -= 1` (no-op on the empty list, which the source
guards against). -/
def decHead : List Level → List Level
  | [] => []
  | x :: xs => { price := x.price, depth := x.depth - 1 } :: xs

/-- One iteration of the `_shift_bid` loop body: if `num_levels <= 1`,
move `bids[0].price` down one tick and reset its depth; otherwise copy
slots `1..L-1` into `0..L-2` and synthesize the last slot one tick below
the old last price with `initial_depth`. -/
def shiftStepBid (L : Nat) (d0 : Int) (l : List Level) : List Level :=
  if L ≤ 1 then
    match l with
    | [] => []
    | x :: xs => { price := x.price - 1, depth := d0 } :: xs
  else
    match l.getLast? with
    | none => []
    | some x => l.tail ++ [{ price := x.price - 1, depth := d0 }]

/-- One iteration of the `_shift_ask` loop body (mirror of `shiftStepBid`:
prices move up one tick). -/
def shiftStepAsk (L : Nat) (d0 : Int) (l : List Level) : List Level :=
  if L ≤ 1 then
    match l with
    | [] => []
    | x :: xs => { price := x.price + 1, depth := d0 } :: xs
  else
    match l.getLast? with
    | none => []
    | some x => l.tail ++ [{ price := x.price + 1, depth := d0 }]

/-- The `for _ in range(64): ...; if side[0].depth > 0: break` loop shared
by `_shift_bid` and `_shift_ask`, parametrised by the loop body. -/
def shiftLoop (step : List Level → List Level) : Nat → List Level → List Level
  | 0, l => l
  | fuel + 1, l =>
    let l' := step l
    if 0 < headDepth l' then l' else shiftLoop step fuel l'

/-- `_MiniBook._shift_bid`. -/
def shiftBid (L : Nat) (d0 : Int) (l : List Level) : List Level :=
  shiftLoop (shiftStepBid L d0) 64 l

/-- `_MiniBook._shift_ask`. -/
def shiftAsk (L : Nat) (d0 : Int) (l : List Level) : List Level :=
  shiftLoop (shiftStepAsk L d0) 64 l

/-- `_MiniBook._improve_bid`: shift slots `L-1..1` down one and insert
`{price, qty}` at slot 0 (the source loop leaves an empty side empty in
the reachable guard-protected cases; we keep `[]` fixed). -/
def improveBid (price qty : Int) (l : List Level) : List Level :=
  match l with
  | [] => []
  | _ => { price := price, depth := qty } :: l.dropLast

/-- `_MiniBook._improve_ask`. -/
def improveAsk (price qty : Int) (l : List Level) : List Level :=
  match l with
  | [] => []
  | _ => { price := price, depth := qty } :: l.dropLast

/-- `_MiniBook.apply(event_type, price, qty)`: the six-way dispatch of
book_replay.py, with unknown event types falling through unchanged. -/
def apply (b : MiniBook) (event_type : Nat) (price qty : Int) : MiniBook :=
  if event_type = 0 then
    -- ADD_BID
    let best_bid := headPrice b.bids
    let best_ask := headPrice b.asks
    if best_bid < price ∧ price < best_ask then
      { b with bids := improveBid price qty b.bids }
    else
      let idx := bidIndex b price
      if 0 ≤ idx ∧ idx < (b.num_levels : Int) then
        { b with bids := addDepthAt b.bids idx.toNat qty }
      else b
  else if event_type = 1 then
    -- ADD_ASK
    let best_bid := headPrice b.bids
    let best_ask := headPrice b.asks
    if price < best_ask ∧ best_bid < price then
      { b with asks := improveAsk price qty b.asks }
    else
      let idx := askIndex b price
      if 0 ≤ idx ∧ idx < (b.num_levels : Int) then
        { b with asks := addDepthAt b.asks idx.toNat qty }
      else b
  else if event_type = 2 then
    -- CANCEL_BID
    let idx := bidIndex b price
    if 0 ≤ idx ∧ idx < (b.num_levels : Int) then
      let i := idx.toNat
      let wasNonzero := 0 < depthAt b.bids i
      let bids' := setDepthAt b.bids i (max 0 (depthAt b.bids i - qty))
      if i = 0 ∧ depthAt bids' 0 = 0 ∧ wasNonzero then
        { b with bids := shiftBid b.num_levels b.initial_depth bids' }
      else { b with bids := bids' }
    else b
  else if event_type = 3 then
    -- CANCEL_ASK
    let idx := askIndex b price
    if 0 ≤ idx ∧ idx < (b.num_levels : Int) then
      let i := idx.toNat
      let wasNonzero := 0 < depthAt b.asks i
      let asks' := setDepthAt b.asks i (max 0 (depthAt b.asks i - qty))
      if i = 0 ∧ depthAt asks' 0 = 0 ∧ wasNonzero then
        { b with asks := shiftAsk b.num_levels b.initial_depth asks' }
      else { b with asks := asks' }
    else b
  else if event_type = 4 then
    -- EXEC_BUY
    if b.asks ≠ [] ∧ 0 < headDepth b.asks then
      let asks' := decHead b.asks
      if headDepth asks' = 0 then
        { b with asks := shiftAsk b.num_levels b.initial_depth asks' }
      else { b with asks := asks' }
    else b
  else if event_type = 5 then
    -- EXEC_SELL
    if b.bids ≠ [] ∧ 0 < headDepth b.bids then
      let bids' := decHead b.bids
      if headDepth bids' = 0 then
        { b with bids := shiftBid b.num_levels b.initial_depth bids' }
      else { b with bids := bids' }
    else b
  else b

/-- `best_bid` property. -/
def best_bid (b : MiniBook) : Int := headPrice b.bids

/-- `best_ask` property. -/
def best_ask (b : MiniBook) : Int := headPrice b.asks

/-- Mid price `(best_bid + best_ask) / 2` as an exact rational
(replay_book computes it in floating point). -/
def midQ (b : MiniBook) : ℚ := ((best_bid b + best_ask b : Int) : ℚ) / 2

/-- Spread `best_ask - best_bid`. -/
def spreadTicks (b : MiniBook) : Int := best_ask b - best_bid b

/-- Fold a list of `(type, price, qty)` events through `apply`, as the
replay loop in `replay_book` does. -/
def replay (b : MiniBook) (events : List (Nat × Int × Int)) : MiniBook :=
  events.foldl (fun st e => apply st e.1 e.2.1 e.2.2) b

/-- C10: applying an event whose type is not one of 0..5 leaves the book
unchanged (the `apply` dispatch simply falls through). -/
theorem spec_c10_unknown_event_type_noop (b : MiniBook) (t : Nat) (p q : Int)
    (h : 6 ≤ t) : apply b t p q = b := by
  have h0 : t ≠ 0 := by omega
  have h1 : t ≠ 1 := by omega
  have h2 : t ≠ 2 := by omega
  have h3 : t ≠ 3 := by omega
  have h4 : t ≠ 4 := by omega
  have h5 : t ≠ 5 := by omega
  simp [apply, h0, h1, h2, h3, h4, h5]

theorem spec_c10_witness :
    6 ≤ 6 ∧ apply (mkBook 10000 5 2 5) 6 0 1 = mkBook 10000 5 2 5 :=
  ⟨by decide, spec_c10_unknown_event_type_noop (mkBook 10000 5 2 5) 6 0 1 (by decide)⟩

/-- C2: EXECUTE_BUY decrements `asks[0].depth` by exactly one whenever it is
positive, irrespective of `qty`, running shift-ask exactly when the depth
reaches zero; with `asks[0].depth == 0` the book is unchanged. EXECUTE_SELL
is symmetric on the bid side. -/
theorem spec_c2_execute_decrement (b : MiniBook) (p q : Int)
    (ha : b.asks ≠ []) (hb : b.bids ≠ []) :
    (1 < headDepth b.asks →
      apply b 4 p q = { b with asks := decHead b.asks } ∧
      headDepth (apply b 4 p q).asks = headDepth b.asks - 1) ∧
    (headDepth b.asks = 1 →
      apply b 4 p q =
        { b with asks := shiftAsk b.num_levels b.initial_depth (decHead b.asks) }) ∧
    (headDepth b.asks = 0 → apply b 4 p q = b) ∧
    (1 < headDepth b.bids →
      apply b 5 p q = { b with bids := decHead b.bids } ∧
      headDepth (apply b 5 p q).bids = headDepth b.bids - 1) ∧
    (headDepth b.bids = 1 →
      apply b 5 p q =
        { b with bids := shiftBid b.num_levels b.initial_depth (decHead b.bids) }) ∧
    (headDepth b.bids = 0 → apply b 5 p q = b) := by
  obtain ⟨L, d0, bids, asks⟩ := b
  cases asks with
  | nil => simp at ha
  | cons a as =>
    cases bids with
    | nil => simp at hb
    | cons x xs =>
      refine ⟨fun h => ?_, fun h => ?_, fun h => ?_, fun h => ?_, fun h => ?_, fun h => ?_⟩
      · have hpos : (0:Int) < a.depth := by simp [headDepth] at h; omega
        have hne : a.depth - 1 ≠ 0 := by simp [headDepth] at h; omega
        simp [apply, headDepth, decHead, hpos, hne]
      · have hpos : (0:Int) < a.depth := by simp [headDepth] at h; omega
        have hz : a.depth - 1 = 0 := by simp [headDepth] at h; omega
        simp [apply, headDepth, decHead, hpos, hz]
      · have hz : ¬ (0:Int) < a.depth := by simp [headDepth] at h; omega
        simp [apply, headDepth, decHead, hz]
      · have hpos : (0:Int) < x.depth := by simp [headDepth] at h; omega
        have hne : x.depth - 1 ≠ 0 := by simp [headDepth] at h; omega
        simp [apply, headDepth, decHead, hpos, hne]
      · have hpos : (0:Int) < x.depth := by simp [headDepth] at h; omega
        have hz : x.depth - 1 = 0 := by simp [headDepth] at h; omega
        simp [apply, headDepth, decHead, hpos, hz]
      · have hz : ¬ (0:Int) < x.depth := by simp [headDepth] at h; omega
        simp [apply, headDepth, decHead, hz]

/-- Witness for C2 at the startup book: one EXECUTE_BUY decrements the best
ask depth from 5 to 4. -/
theorem spec_c2_witness :
    (mkBook 10000 5 2 5).asks ≠ [] ∧ (mkBook 10000 5 2 5).bids ≠ [] ∧
    1 < headDepth (mkBook 10000 5 2 5).asks ∧
    apply (mkBook 10000 5 2 5) 4 0 7 =
      { mkBook 10000 5 2 5 with asks := decHead (mkBook 10000 5 2 5).asks } :=
  ⟨by decide, by decide, by decide,
    ((spec_c2_execute_decrement (mkBook 10000 5 2 5) 0 7 (by decide) (by decide)).1
      (by decide)).1⟩

/-- `bidIndex` is `-1` whenever `price` falls outside the tracked bid window
`[best_bid - L + 1, best_bid]`. -/
theorem bidIndex_out_of_window (b : MiniBook) (p : Int)
    (h : p < best_bid b - b.num_levels + 1 ∨ best_bid b < p) :
    bidIndex b p = -1 := by
  cases hb : b.bids with
  | nil => simp [bidIndex, hb]
  | cons x xs =>
    have hx : best_bid b = x.price := by simp [best_bid, headPrice, hb]
    rw [hx] at h
    simp only [bidIndex, hb]
    rw [if_neg]
    omega

/-- `askIndex` is `-1` whenever `price` falls outside the tracked ask window
`[best_ask, best_ask + L - 1]`. -/
theorem askIndex_out_of_window (b : MiniBook) (p : Int)
    (h : p < best_ask b ∨ best_ask b + b.num_levels - 1 < p) :
    askIndex b p = -1 := by
  cases hb : b.asks with
  | nil => simp [askIndex, hb]
  | cons x xs =>
    have hx : best_ask b = x.price := by simp [best_ask, headPrice, hb]
    rw [hx] at h
    simp only [askIndex, hb]
    rw [if_neg]
    omega

/-- C4 (counterexample to the claim as stated): an EXECUTE_BUY whose
`price_ticks` (0) is far outside the ask window `[10001, 10005]` of the
startup book still changes the book state — executions never consult the
price, so out-of-window prices do not make them no-ops. -/
theorem spec_c4_counterexample :
    (0 : Int) < best_ask (mkBook 10000 5 2 5) ∧
    apply (mkBook 10000 5 2 5) 4 0 1 ≠ mkBook 10000 5 2 5 := by
  constructor
  · decide
  · decide

/-- C4 (amended): for the four price-referencing event types (ADD_BID,
ADD_ASK, CANCEL_BID, CANCEL_ASK), an event whose `price_ticks` lies outside
`[best_bid - L + 1, best_bid]` (bid events) or `[best_ask, best_ask + L - 1]`
(ask events) leaves the book unchanged, except for ADD events satisfying the
improve condition `best_bid < price < best_ask`.  (EXECUTE_BUY/SELL do not
reference `price_ticks` at all, so no such frame property holds for them.) -/
theorem spec_c4_out_of_window_ignored (b : MiniBook) (p q : Int) :
    ((p < best_bid b - b.num_levels + 1 ∨ best_bid b < p) →
      ¬(best_bid b < p ∧ p < best_ask b) → apply b 0 p q = b) ∧
    ((p < best_bid b - b.num_levels + 1 ∨ best_bid b < p) → apply b 2 p q = b) ∧
    ((p < best_ask b ∨ best_ask b + b.num_levels - 1 < p) →
      ¬(best_bid b < p ∧ p < best_ask b) → apply b 1 p q = b) ∧
    ((p < best_ask b ∨ best_ask b + b.num_levels - 1 < p) → apply b 3 p q = b) := by
  refine ⟨fun hout himp => ?_, fun hout => ?_, fun hout himp => ?_, fun hout => ?_⟩
  · have hidx := bidIndex_out_of_window b p hout
    unfold best_bid best_ask at himp
    simp [apply, hidx, himp]
  · have hidx := bidIndex_out_of_window b p hout
    simp [apply, hidx]
  · have hidx := askIndex_out_of_window b p hout
    unfold best_bid best_ask at himp
    have himp2 : ¬(p < headPrice b.asks ∧ headPrice b.bids < p) := fun hc => himp ⟨hc.2, hc.1⟩
    simp [apply, hidx, himp2]
  · have hidx := askIndex_out_of_window b p hout
    simp [apply, hidx]

/-- Witness for the amended C4 at the startup book with a far-away price. -/
theorem spec_c4_witness :
    ((500:Int) < best_bid (mkBook 10000 5 2 5) - (mkBook 10000 5 2 5).num_levels + 1 ∨
      best_bid (mkBook 10000 5 2 5) < 500) ∧
    ¬(best_bid (mkBook 10000 5 2 5) < 500 ∧ (500:Int) < best_ask (mkBook 10000 5 2 5)) ∧
    apply (mkBook 10000 5 2 5) 0 500 9 = mkBook 10000 5 2 5 ∧
    apply (mkBook 10000 5 2 5) 2 500 9 = mkBook 10000 5 2 5 := by
  refine ⟨by decide, by decide, ?_, ?_⟩
  · exact (spec_c4_out_of_window_ignored (mkBook 10000 5 2 5) 500 9).1 (by decide) (by decide)
  · exact (spec_c4_out_of_window_ignored (mkBook 10000 5 2 5) 500 9).2.1 (by decide)

theorem length_setDepthAt : ∀ (l : List Level) (i : Nat) (d : Int),
    (setDepthAt l i d).length = l.length := by
  intro l
  induction l with
  | nil => intro i d; rfl
  | cons x xs ih =>
    intro i d
    cases i with
    | zero => rfl
    | succ j => simp [setDepthAt, ih]

theorem getElem?_setDepthAt_self : ∀ (l : List Level) (i : Nat) (d : Int),
    (setDepthAt l i d)[i]? = l[i]?.map fun lv => { price := lv.price, depth := d } := by
  intro l
  induction l with
  | nil => intro i d; simp [setDepthAt]
  | cons x xs ih =>
    intro i d
    cases i with
    | zero => simp [setDepthAt]
    | succ j => simp [setDepthAt, ih]

theorem getElem?_setDepthAt_ne : ∀ (l : List Level) (i : Nat) (d : Int) (j : Nat),
    j ≠ i → (setDepthAt l i d)[j]? = l[j]? := by
  intro l
  induction l with
  | nil => intro i d j _; simp [setDepthAt]
  | cons x xs ih =>
    intro i d j hne
    cases i with
    | zero =>
      cases j with
      | zero => exact absurd rfl hne
      | succ j' => simp [setDepthAt]
    | succ i' =>
      cases j with
      | zero => simp [setDepthAt]
      | succ j' => simp [setDepthAt, ih i' d j' (fun h => hne (by omega))]

/-- `bidIndex` recovers the distance from the best bid when the price is in
the tracked window. -/
theorem bidIndex_of_in_window (b : MiniBook) (i : Nat) (hne : b.bids ≠ [])
    (hi : i < b.num_levels) : bidIndex b (best_bid b - i) = i := by
  cases hb : b.bids with
  | nil => exact absurd hb hne
  | cons x xs =>
    have hx : best_bid b = x.price := by simp [best_bid, headPrice, hb]
    simp only [bidIndex, hb, hx]
    rw [if_pos]
    · omega
    · omega

/-- `askIndex` recovers the distance from the best ask when the price is in
the tracked window. -/
theorem askIndex_of_in_window (b : MiniBook) (i : Nat) (hne : b.asks ≠ [])
    (hi : i < b.num_levels) : askIndex b (best_ask b + i) = i := by
  cases hb : b.asks with
  | nil => exact absurd hb hne
  | cons x xs =>
    have hx : best_ask b = x.price := by simp [best_ask, headPrice, hb]
    simp only [askIndex, hb, hx]
    rw [if_pos]
    · omega
    · omega

/-- `bidIndex` is `-1` when the price matches no tracked bid slot. -/
theorem bidIndex_of_no_slot (b : MiniBook) (p : Int)
    (h : ∀ i : Nat, i < b.num_levels → p ≠ best_bid b - i) : bidIndex b p = -1 := by
  cases hb : b.bids with
  | nil => simp [bidIndex, hb]
  | cons x xs =>
    have hx : best_bid b = x.price := by simp [best_bid, headPrice, hb]
    simp only [bidIndex, hb]
    rw [if_neg]
    intro ⟨h0, hL⟩
    exact h (x.price - p).toNat (by omega) (by rw [hx]; omega)

/-- `askIndex` is `-1` when the price matches no tracked ask slot. -/
theorem askIndex_of_no_slot (b : MiniBook) (p : Int)
    (h : ∀ i : Nat, i < b.num_levels → p ≠ best_ask b + i) : askIndex b p = -1 := by
  cases hb : b.asks with
  | nil => simp [askIndex, hb]
  | cons x xs =>
    have hx : best_ask b = x.price := by simp [best_ask, headPrice, hb]
    simp only [askIndex, hb]
    rw [if_neg]
    intro ⟨h0, hL⟩
    exact h (p - x.price).toNat (by omega) (by rw [hx]; omega)

/-- C5: ADD_BID improves the book (all bid slots shift down one and slot 0
becomes `{p, q}`) when `best_bid < p < best_ask`; adds `q` to the matching
slot's depth when `p` matches a tracked slot; and otherwise leaves the book
unchanged.  ADD_ASK is symmetric.  Scenario S3 holds concretely. -/
theorem spec_c5_add_bid_semantics :
    (∀ (b : MiniBook) (p q : Int), b.bids ≠ [] →
      (best_bid b < p ∧ p < best_ask b →
        (apply b 0 p q).asks = b.asks ∧
        (apply b 0 p q).bids.length = b.bids.length ∧
        (apply b 0 p q).bids[0]? = some { price := p, depth := q } ∧
        (∀ j : Nat, j < b.bids.length - 1 → (apply b 0 p q).bids[j + 1]? = b.bids[j]?)) ∧
      (∀ i : Nat, i < b.num_levels → p = best_bid b - i →
        ¬(best_bid b < p ∧ p < best_ask b) →
        (apply b 0 p q).asks = b.asks ∧
        ((apply b 0 p q).bids[i]?).map Level.depth =
          (b.bids[i]?).map (fun lv => lv.depth + q) ∧
        ((apply b 0 p q).bids[i]?).map Level.price = (b.bids[i]?).map Level.price ∧
        (∀ j : Nat, j ≠ i → (apply b 0 p q).bids[j]? = b.bids[j]?)) ∧
      ((∀ i : Nat, i < b.num_levels → p ≠ best_bid b - i) →
        ¬(best_bid b < p ∧ p < best_ask b) → apply b 0 p q = b)) ∧
    (∀ (b : MiniBook) (p q : Int), b.asks ≠ [] →
      (best_bid b < p ∧ p < best_ask b →
        (apply b 1 p q).bids = b.bids ∧
        (apply b 1 p q).asks.length = b.asks.length ∧
        (apply b 1 p q).asks[0]? = some { price := p, depth := q } ∧
        (∀ j : Nat, j < b.asks.length - 1 → (apply b 1 p q).asks[j + 1]? = b.asks[j]?)) ∧
      (∀ i : Nat, i < b.num_levels → p = best_ask b + i →
        ¬(best_bid b < p ∧ p < best_ask b) →
        (apply b 1 p q).bids = b.bids ∧
        ((apply b 1 p q).asks[i]?).map Level.depth =
          (b.asks[i]?).map (fun lv => lv.depth + q) ∧
        ((apply b 1 p q).asks[i]?).map Level.price = (b.asks[i]?).map Level.price ∧
        (∀ j : Nat, j ≠ i → (apply b 1 p q).asks[j]? = b.asks[j]?)) ∧
      ((∀ i : Nat, i < b.num_levels → p ≠ best_ask b + i) →
        ¬(best_bid b < p ∧ p < best_ask b) → apply b 1 p q = b)) ∧
    (replay (mkBook 10000 5 2 5) [(0, 10000, 3)] =
      { num_levels := 5, initial_depth := 5,
        bids := [{ price := 10000, depth := 3 }, { price := 9999, depth := 5 },
                 { price := 9998, depth := 5 }, { price := 9997, depth := 5 },
                 { price := 9996, depth := 5 }],
        asks := [{ price := 10001, depth := 5 }, { price := 10002, depth := 5 },
                 { price := 10003, depth := 5 }, { price := 10004, depth := 5 },
                 { price := 10005, depth := 5 }] } ∧
      spreadTicks (replay (mkBook 10000 5 2 5) [(0, 10000, 3)]) = 1 ∧
      midQ (replay (mkBook 10000 5 2 5) [(0, 10000, 3)]) = 20001 / 2) := by
  refine ⟨?_, ?_, ?_, ?_, ?_⟩
  · intro b p q hne
    refine ⟨fun himp => ?_, fun i hi hp hnimp => ?_, fun hnoslot hnimp => ?_⟩
    · obtain ⟨h1, h2⟩ := himp
      simp only [best_bid] at h1
      simp only [best_ask] at h2
      have happ : apply b 0 p q = { b with bids := improveBid p q b.bids } := by
        simp [apply, h1, h2]
      rw [happ]
      cases hb : b.bids with
      | nil => exact absurd hb hne
      | cons x xs =>
        refine ⟨rfl, ?_, ?_, ?_⟩
        · simp [improveBid]
        · simp [improveBid]
        · intro j hj
          simp only [List.length_cons] at hj
          simp only [improveBid, List.getElem?_cons_succ, List.getElem?_dropLast, List.length_cons]
          rw [if_pos (by omega)]
    · have hidx : bidIndex b p = i := by rw [hp]; exact bidIndex_of_in_window b i hne hi
      simp only [best_bid, best_ask] at hnimp
      have hiL : ((i : Int)) < (b.num_levels : Int) := by exact_mod_cast hi
      have happ : apply b 0 p q = { b with bids := addDepthAt b.bids i q } := by
        simp [apply, hidx, hnimp, hiL]
      rw [happ]
      refine ⟨rfl, ?_, ?_, ?_⟩
      · cases hli : b.bids[i]? with
        | none => simp [addDepthAt, getElem?_setDepthAt_self, hli]
        | some lv => simp [addDepthAt, getElem?_setDepthAt_self, hli, depthAt]
      · cases hli : b.bids[i]? with
        | none => simp [addDepthAt, getElem?_setDepthAt_self, hli]
        | some lv => simp [addDepthAt, getElem?_setDepthAt_self, hli, depthAt]
      · intro j hj
        simp [addDepthAt, getElem?_setDepthAt_ne _ _ _ _ hj]
    · have hidx := bidIndex_of_no_slot b p hnoslot
      simp only [best_bid, best_ask] at hnimp
      simp [apply, hidx, hnimp]
  · intro b p q hne
    refine ⟨fun himp => ?_, fun i hi hp hnimp => ?_, fun hnoslot hnimp => ?_⟩
    · obtain ⟨h1, h2⟩ := himp
      simp only [best_bid] at h1
      simp only [best_ask] at h2
      have happ : apply b 1 p q = { b with asks := improveAsk p q b.asks } := by
        simp [apply, h1, h2]
      rw [happ]
      cases hb : b.asks with
      | nil => exact absurd hb hne
      | cons x xs =>
        refine ⟨rfl, ?_, ?_, ?_⟩
        · simp [improveAsk]
        · simp [improveAsk]
        · intro j hj
          simp only [List.length_cons] at hj
          simp only [improveAsk, List.getElem?_cons_succ, List.getElem?_dropLast, List.length_cons]
          rw [if_pos (by omega)]
    · have hidx : askIndex b p = i := by rw [hp]; exact askIndex_of_in_window b i hne hi
      have hnimp2 : ¬(p < headPrice b.asks ∧ headPrice b.bids < p) := by
        simp only [best_bid, best_ask] at hnimp
        exact fun hc => hnimp ⟨hc.2, hc.1⟩
      have hiL : ((i : Int)) < (b.num_levels : Int) := by exact_mod_cast hi
      have happ : apply b 1 p q = { b with asks := addDepthAt b.asks i q } := by
        simp [apply, hidx, hnimp2, hiL]
      rw [happ]
      refine ⟨rfl, ?_, ?_, ?_⟩
      · cases hli : b.asks[i]? with
        | none => simp [addDepthAt, getElem?_setDepthAt_self, hli]
        | some lv => simp [addDepthAt, getElem?_setDepthAt_self, hli, depthAt]
      · cases hli : b.asks[i]? with
        | none => simp [addDepthAt, getElem?_setDepthAt_self, hli]
        | some lv => simp [addDepthAt, getElem?_setDepthAt_self, hli, depthAt]
      · intro j hj
        simp [addDepthAt, getElem?_setDepthAt_ne _ _ _ _ hj]
    · have hidx := askIndex_of_no_slot b p hnoslot
      have hnimp2 : ¬(p < headPrice b.asks ∧ headPrice b.bids < p) := by
        simp only [best_bid, best_ask] at hnimp
        exact fun hc => hnimp ⟨hc.2, hc.1⟩
      simp [apply, hidx, hnimp2]
  · decide
  · decide
  · rw [show replay (mkBook 10000 5 2 5) [(0, 10000, 3)] =
      { num_levels := 5, initial_depth := 5,
        bids := [{ price := 10000, depth := 3 }, { price := 9999, depth := 5 },
                 { price := 9998, depth := 5 }, { price := 9997, depth := 5 },
                 { price := 9996, depth := 5 }],
        asks := [{ price := 10001, depth := 5 }, { price := 10002, depth := 5 },
                 { price := 10003, depth := 5 }, { price := 10004, depth := 5 },
                 { price := 10005, depth := 5 }] } from by decide]
    norm_num [midQ, best_bid, best_ask, headPrice]

/-- Witness for C5 at scenario S3's input: the improve case fires. -/
theorem spec_c5_witness :
    (mkBook 10000 5 2 5).bids ≠ [] ∧
    (best_bid (mkBook 10000 5 2 5) < 10000 ∧ (10000 : Int) < best_ask (mkBook 10000 5 2 5)) ∧
    (apply (mkBook 10000 5 2 5) 0 10000 3).bids[0]? = some { price := 10000, depth := 3 } :=
  ⟨by decide, ⟨by decide, by decide⟩,
    ((spec_c5_add_bid_semantics.1 (mkBook 10000 5 2 5) 10000 3
      (by decide)).1 ⟨by decide, by decide⟩).2.2.1⟩

/-- The shift loop runs `step` between 1 and `fuel` times and stops at the
first iteration after which the head depth is positive. -/
theorem shiftLoop_spec (step : List Level → List Level) :
    ∀ (fuel : Nat) (l : List Level), 1 ≤ fuel →
    ∃ k, 1 ≤ k ∧ k ≤ fuel ∧ shiftLoop step fuel l = step^[k] l ∧
      (∀ j, 1 ≤ j → j < k → ¬ 0 < headDepth (step^[j] l)) ∧
      (k < fuel → 0 < headDepth (step^[k] l)) := by
  intro fuel
  induction fuel with
  | zero => intro l h; omega
  | succ n ih =>
    intro l _
    by_cases hpos : 0 < headDepth (step l)
    · refine ⟨1, le_refl 1, by omega, ?_, ?_, ?_⟩
      · simp [shiftLoop, hpos]
      · intro j h1 hj; omega
      · intro _; simpa using hpos
    · cases n with
      | zero =>
        refine ⟨1, le_refl 1, le_refl 1, ?_, ?_, ?_⟩
        · simp [shiftLoop, hpos]
        · intro j h1 hj; omega
        · intro h; omega
      | succ m =>
        obtain ⟨k, hk1, hkle, heq, hstop, hlast⟩ := ih (step l) (by omega)
        refine ⟨k + 1, by omega, by omega, ?_, ?_, ?_⟩
        · rw [Function.iterate_succ_apply]
          rw [← heq]
          simp [shiftLoop, hpos]
        · intro j hj1 hjk
          cases j with
          | zero => omega
          | succ j' =>
            rw [Function.iterate_succ_apply]
            rcases Nat.eq_zero_or_pos j' with hz | hp
            · subst hz; simpa using hpos
            · exact hstop j' hp (by omega)
        · intro hk
          rw [Function.iterate_succ_apply]
          exact hlast (by omega)

/-- C3: the shift cascade.  With `L > 1` each iteration copies slots
`1..L-1` into `0..L-2` and synthesizes `slot[L-1]` one tick beyond the
post-copy `slot[L-2]` at `initial_depth`; with `L == 1` it moves `slot[0]`
one tick outward and resets its depth; the cascade performs at most 64
iterations and stops as soon as `slot[0].depth > 0`. -/
theorem spec_c3_shift_cascade :
    (∀ (L : Nat) (d0 : Int) (l : List Level), l.length = L → 2 ≤ L →
      (shiftStepBid L d0 l).length = L ∧
      (∀ i : Nat, i + 1 < L → (shiftStepBid L d0 l)[i]? = l[i + 1]?) ∧
      (∀ x y, (shiftStepBid L d0 l)[L - 2]? = some x →
        (shiftStepBid L d0 l)[L - 1]? = some y → y.price = x.price - 1 ∧ y.depth = d0) ∧
      (shiftStepAsk L d0 l).length = L ∧
      (∀ i : Nat, i + 1 < L → (shiftStepAsk L d0 l)[i]? = l[i + 1]?) ∧
      (∀ x y, (shiftStepAsk L d0 l)[L - 2]? = some x →
        (shiftStepAsk L d0 l)[L - 1]? = some y → y.price = x.price + 1 ∧ y.depth = d0)) ∧
    (∀ (d0 : Int) (x : Level),
      shiftStepBid 1 d0 [x] = [{ price := x.price - 1, depth := d0 }] ∧
      shiftStepAsk 1 d0 [x] = [{ price := x.price + 1, depth := d0 }]) ∧
    (∀ (L : Nat) (d0 : Int) (l : List Level),
      (∃ k, 1 ≤ k ∧ k ≤ 64 ∧ shiftBid L d0 l = (shiftStepBid L d0)^[k] l ∧
        (∀ j, 1 ≤ j → j < k → ¬ 0 < headDepth ((shiftStepBid L d0)^[j] l)) ∧
        (k < 64 → 0 < headDepth ((shiftStepBid L d0)^[k] l))) ∧
      (∃ k, 1 ≤ k ∧ k ≤ 64 ∧ shiftAsk L d0 l = (shiftStepAsk L d0)^[k] l ∧
        (∀ j, 1 ≤ j → j < k → ¬ 0 < headDepth ((shiftStepAsk L d0)^[j] l)) ∧
        (k < 64 → 0 < headDepth ((shiftStepAsk L d0)^[k] l)))) := by
  refine ⟨?_, ?_, ?_⟩
  · intro L d0 l hlen hL2
    have hne : l ≠ [] := by intro h; subst h; simp at hlen; omega
    have hlast : l.getLast? = l[l.length - 1]? := List.getLast?_eq_getElem? l
    obtain ⟨z, hz⟩ : ∃ z, l.getLast? = some z := by
      have := (List.getLast?_isSome (l := l)).mpr hne
      exact Option.isSome_iff_exists.mp this
    have hstepb : shiftStepBid L d0 l = l.tail ++ [{ price := z.price - 1, depth := d0 }] := by
      simp only [shiftStepBid, hz]
      rw [if_neg (by omega)]
    have hstepa : shiftStepAsk L d0 l = l.tail ++ [{ price := z.price + 1, depth := d0 }] := by
      simp only [shiftStepAsk, hz]
      rw [if_neg (by omega)]
    have htail : l.tail.length = L - 1 := by simp [hlen]
    refine ⟨?_, ?_, ?_, ?_, ?_, ?_⟩
    · rw [hstepb]; simp [htail]; omega
    · intro i hi
      rw [hstepb, List.getElem?_append, if_pos (by omega), List.getElem?_tail]
    · intro x y hx hy
      rw [hstepb, List.getElem?_append, if_pos (by omega), List.getElem?_tail] at hx
      rw [hstepb, List.getElem?_append, if_neg (by omega)] at hy
      have : L - 1 - l.tail.length = 0 := by omega
      rw [this] at hy
      simp at hy
      have hxz : x = z := by
        have h1 : l[L - 2 + 1]? = l[l.length - 1]? := by
          have : L - 2 + 1 = l.length - 1 := by omega
          rw [this]
        rw [h1, ← hlast, hz] at hx
        exact (Option.some_injective _ hx).symm
      subst hxz
      simp [← hy]
    · rw [hstepa]; simp [htail]; omega
    · intro i hi
      rw [hstepa, List.getElem?_append, if_pos (by omega), List.getElem?_tail]
    · intro x y hx hy
      rw [hstepa, List.getElem?_append, if_pos (by omega), List.getElem?_tail] at hx
      rw [hstepa, List.getElem?_append, if_neg (by omega)] at hy
      have : L - 1 - l.tail.length = 0 := by omega
      rw [this] at hy
      simp at hy
      have hxz : x = z := by
        have h1 : l[L - 2 + 1]? = l[l.length - 1]? := by
          have : L - 2 + 1 = l.length - 1 := by omega
          rw [this]
        rw [h1, ← hlast, hz] at hx
        exact (Option.some_injective _ hx).symm
      subst hxz
      simp [← hy]
  · intro d0 x
    constructor
    · simp [shiftStepBid]
    · simp [shiftStepAsk]
  · intro L d0 l
    exact ⟨shiftLoop_spec (shiftStepBid L d0) 64 l (by omega),
           shiftLoop_spec (shiftStepAsk L d0) 64 l (by omega)⟩

/-- Witness for C3 at a concrete two-level book side. -/
theorem spec_c3_witness :
    ([({ price := 9, depth := 0 } : Level), { price := 8, depth := 4 }].length = 2) ∧
    shiftStepBid 2 7 [({ price := 9, depth := 0 } : Level), { price := 8, depth := 4 }] =
      [{ price := 8, depth := 4 }, { price := 7, depth := 7 }] ∧
    (shiftStepBid 2 7 [({ price := 9, depth := 0 } : Level), { price := 8, depth := 4 }])[0]? =
      [({ price := 9, depth := 0 } : Level), { price := 8, depth := 4 }][1]? := by
  refine ⟨by decide, by decide, ?_⟩
  exact (spec_c3_shift_cascade.1 2 7
    [{ price := 9, depth := 0 }, { price := 8, depth := 4 }] (by decide) (by decide)).2.1 0 (by decide)

/-- Prices of a side, in slot order. -/
def priceList (l : List Level) : List Int := l.map Level.price

/-- All depths on a side are non-negative. -/
def DepthsNonneg (l : List Level) : Prop := ∀ lv ∈ l, 0 ≤ lv.depth

/-- Bid prices strictly decrease with the slot index. -/
def BidSorted (l : List Level) : Prop := List.Chain' (fun a b => b < a) (priceList l)

/-- Ask prices strictly increase with the slot index. -/
def AskSorted (l : List Level) : Prop := List.Chain' (fun a b => a < b) (priceList l)

/-- The last `j` slots of a side all have positive depth. -/
def SuffPos (j : Nat) (l : List Level) : Prop :=
  ∀ lv ∈ l.drop (l.length - j), 0 < lv.depth

/-- The inductive book invariant: well-formed lengths, a small enough level
count, positive synthetic depth, sorted sides, uncrossed tops, non-negative
depths, and positive depth at both tops. -/
def INV (b : MiniBook) : Prop :=
  b.bids.length = b.num_levels ∧ b.asks.length = b.num_levels ∧
  1 ≤ b.num_levels ∧ b.num_levels ≤ 64 ∧ 0 < b.initial_depth ∧
  BidSorted b.bids ∧ AskSorted b.asks ∧
  headPrice b.bids < headPrice b.asks ∧
  DepthsNonneg b.bids ∧ DepthsNonneg b.asks ∧
  0 < headDepth b.bids ∧ 0 < headDepth b.asks

theorem priceList_setDepthAt : ∀ (l : List Level) (i : Nat) (d : Int),
    priceList (setDepthAt l i d) = priceList l := by
  intro l
  induction l with
  | nil => intro i d; rfl
  | cons x xs ih =>
    intro i d
    cases i with
    | zero => simp [setDepthAt, priceList]
    | succ j => simp [setDepthAt, priceList]; simpa [priceList] using ih j d

theorem mem_setDepthAt : ∀ (l : List Level) (i : Nat) (d : Int) (lv : Level),
    lv ∈ setDepthAt l i d → lv ∈ l ∨ lv.depth = d := by
  intro l
  induction l with
  | nil => intro i d lv h; simp [setDepthAt] at h
  | cons x xs ih =>
    intro i d lv h
    cases i with
    | zero =>
      rcases List.mem_cons.mp h with h1 | h1
      · right; rw [h1]
      · left; exact List.mem_cons_of_mem x h1
    | succ j =>
      rcases List.mem_cons.mp h with h1 | h1
      · left; rw [h1]; exact List.mem_cons_self x xs
      · rcases ih j d lv h1 with h2 | h2
        · left; exact List.mem_cons_of_mem x h2
        · right; exact h2

theorem headDepth_setDepthAt_zero (l : List Level) (d : Int) (h : l ≠ []) :
    headDepth (setDepthAt l 0 d) = d := by
  cases l with
  | nil => exact absurd rfl h
  | cons x xs => rfl

theorem headDepth_setDepthAt_succ (l : List Level) (i : Nat) (d : Int) :
    headDepth (setDepthAt l (i + 1) d) = headDepth l := by
  cases l with
  | nil => rfl
  | cons x xs => rfl

theorem headPrice_setDepthAt (l : List Level) (i : Nat) (d : Int) :
    headPrice (setDepthAt l i d) = headPrice l := by
  cases l with
  | nil => rfl
  | cons x xs => cases i with
    | zero => rfl
    | succ j => rfl

theorem depthAt_zero_eq_headDepth (l : List Level) (h : l ≠ []) :
    depthAt l 0 = headDepth l := by
  cases l with
  | nil => exact absurd rfl h
  | cons x xs => simp [depthAt, headDepth]

theorem depthAt_nonneg (l : List Level) (i : Nat) (h : DepthsNonneg l) :
    0 ≤ depthAt l i := by
  unfold depthAt
  cases hli : l[i]? with
  | none => simp
  | some lv =>
    have hm : lv ∈ l := by
      obtain ⟨hb, he⟩ := List.getElem?_eq_some.mp hli
      exact he ▸ List.getElem_mem hb
    exact h lv hm

theorem mem_dropLast : ∀ (l : List Level) (lv : Level), lv ∈ l.dropLast → lv ∈ l := by
  intro l
  induction l with
  | nil => intro lv h; simp at h
  | cons x xs ih =>
    intro lv h
    cases xs with
    | nil => simp at h
    | cons y ys =>
      rw [List.dropLast_cons₂] at h
      rcases List.mem_cons.mp h with h1 | h1
      · rw [h1]; exact List.mem_cons_self _ _
      · exact List.mem_cons_of_mem x (ih lv h1)

theorem chain'_dropLast (R : Int → Int → Prop) :
    ∀ (l : List Int), List.Chain' R l → List.Chain' R l.dropLast := by
  intro l
  induction l with
  | nil => intro h; simp
  | cons x xs ih =>
    intro h
    cases xs with
    | nil => simp
    | cons y ys =>
      rw [List.dropLast_cons₂]
      rw [List.chain'_cons'] at h
      rw [List.chain'_cons']
      refine ⟨?_, ih h.2⟩
      intro z hz
      apply h.1
      cases ys with
      | nil => simp at hz
      | cons w ws =>
        rw [List.dropLast_cons₂] at hz
        simp at hz
        simp [hz]

theorem shiftLoop_preserves (step : List Level → List Level) (P : List Level → Prop)
    (hP : ∀ l, P l → P (step l)) :
    ∀ (fuel : Nat) (l : List Level), P l → P (shiftLoop step fuel l) := by
  intro fuel
  induction fuel with
  | zero => intro l h; exact h
  | succ n ih =>
    intro l h
    simp only [shiftLoop]
    by_cases hpos : 0 < headDepth (step l)
    · simp only [hpos, if_pos]; exact hP l h
    · rw [if_neg hpos]; exact ih (step l) (hP l h)

theorem shiftLoop_head_pos (step : List Level → List Level) (L : Nat) (hL : 1 ≤ L)
    (hlen : ∀ l : List Level, l.length = L → (step l).length = L)
    (hsuff : ∀ (j : Nat) (l : List Level), l.length = L → SuffPos j l →
      SuffPos (j + 1) (step l)) :
    ∀ (fuel j : Nat) (l : List Level), l.length = L → SuffPos j l → L ≤ fuel + j →
      0 < headDepth (shiftLoop step fuel l) := by
  intro fuel
  induction fuel with
  | zero =>
    intro j l hl hs hLe
    simp only [shiftLoop]
    cases l with
    | nil => simp at hl; omega
    | cons x xs =>
      refine hs x ?_
      have h0 : (x :: xs).length - j = 0 := by
        simp only [List.length_cons] at hl ⊢
        omega
      rw [h0]
      exact List.mem_cons_self x xs
  | succ n ih =>
    intro j l hl hs hLe
    simp only [shiftLoop]
    by_cases hpos : 0 < headDepth (step l)
    · rw [if_pos hpos]; exact hpos
    · rw [if_neg hpos]
      exact ih (j + 1) (step l) (hlen l hl) (hsuff j l hl hs) (by omega)

theorem shiftStepBid_length (L : Nat) (d0 : Int) (hL : 1 ≤ L) :
    ∀ l : List Level, l.length = L → (shiftStepBid L d0 l).length = L := by
  intro l hl
  by_cases h1 : L ≤ 1
  · cases l with
    | nil => simp at hl; omega
    | cons x xs =>
      simp only [shiftStepBid, if_pos h1]
      simpa using hl
  · have hne : l ≠ [] := by intro h; subst h; simp at hl; omega
    obtain ⟨z, hz⟩ := Option.isSome_iff_exists.mp ((List.getLast?_isSome (l := l)).mpr hne)
    simp only [shiftStepBid, if_neg h1, hz]
    simp [List.length_tail, hl]
    omega

theorem shiftStepAsk_length (L : Nat) (d0 : Int) (hL : 1 ≤ L) :
    ∀ l : List Level, l.length = L → (shiftStepAsk L d0 l).length = L := by
  intro l hl
  by_cases h1 : L ≤ 1
  · cases l with
    | nil => simp at hl; omega
    | cons x xs =>
      simp only [shiftStepAsk, if_pos h1]
      simpa using hl
  · have hne : l ≠ [] := by intro h; subst h; simp at hl; omega
    obtain ⟨z, hz⟩ := Option.isSome_iff_exists.mp ((List.getLast?_isSome (l := l)).mpr hne)
    simp only [shiftStepAsk, if_neg h1, hz]
    simp [List.length_tail, hl]
    omega

theorem shiftStepBid_suffpos (L : Nat) (d0 : Int) (hL : 1 ≤ L) (hd0 : 0 < d0) :
    ∀ (j : Nat) (l : List Level), l.length = L → SuffPos j l →
      SuffPos (j + 1) (shiftStepBid L d0 l) := by
  intro j l hl hs lv hmem
  by_cases h1 : L ≤ 1
  · cases l with
    | nil => simp at hl; omega
    | cons x xs =>
      simp only [shiftStepBid, if_pos h1] at hmem
      have hlv : lv = { price := x.price - 1, depth := d0 } ∨ lv ∈ xs :=
        List.mem_cons.mp (List.mem_of_mem_drop hmem)
      have hxs : xs = [] := by
        simp only [List.length_cons] at hl
        exact List.length_eq_zero.mp (by omega)
      rcases hlv with h | h
      · rw [h]; exact hd0
      · rw [hxs] at h; simp at h
  · have hne : l ≠ [] := by intro h; subst h; simp at hl; omega
    obtain ⟨z, hz⟩ := Option.isSome_iff_exists.mp ((List.getLast?_isSome (l := l)).mpr hne)
    simp only [shiftStepBid, if_neg h1, hz] at hmem
    have hlent : l.tail.length = L - 1 := by simp [List.length_tail, hl]
    have hlenapp : (l.tail ++ [({ price := z.price - 1, depth := d0 } : Level)]).length = L := by
      simp [hlent]; omega
    rw [hlenapp] at hmem
    have hk : L - (j + 1) ≤ l.tail.length := by omega
    rw [List.drop_append_of_le_length hk] at hmem
    rcases List.mem_append.mp hmem with h | h
    · have h2 : lv ∈ l.drop (1 + (L - (j + 1))) := by
        have : l.tail = l.drop 1 := (List.drop_one l).symm
        rw [this, List.drop_drop] at h
        exact h
      have h3 : lv ∈ l.drop (l.length - j) := by
        have hsplit : l.drop (1 + (L - (j + 1))) =
            (l.drop (l.length - j)).drop (1 + (L - (j + 1)) - (l.length - j)) := by
          rw [List.drop_drop]
          congr 1
          omega
        rw [hsplit] at h2
        exact List.drop_subset _ _ h2
      exact hs lv h3
    · simp at h
      rw [h]
      exact hd0

theorem shiftStepAsk_suffpos (L : Nat) (d0 : Int) (hL : 1 ≤ L) (hd0 : 0 < d0) :
    ∀ (j : Nat) (l : List Level), l.length = L → SuffPos j l →
      SuffPos (j + 1) (shiftStepAsk L d0 l) := by
  intro j l hl hs lv hmem
  by_cases h1 : L ≤ 1
  · cases l with
    | nil => simp at hl; omega
    | cons x xs =>
      simp only [shiftStepAsk, if_pos h1] at hmem
      have hlv : lv = { price := x.price + 1, depth := d0 } ∨ lv ∈ xs :=
        List.mem_cons.mp (List.mem_of_mem_drop hmem)
      have hxs : xs = [] := by
        simp only [List.length_cons] at hl
        exact List.length_eq_zero.mp (by omega)
      rcases hlv with h | h
      · rw [h]; exact hd0
      · rw [hxs] at h; simp at h
  · have hne : l ≠ [] := by intro h; subst h; simp at hl; omega
    obtain ⟨z, hz⟩ := Option.isSome_iff_exists.mp ((List.getLast?_isSome (l := l)).mpr hne)
    simp only [shiftStepAsk, if_neg h1, hz] at hmem
    have hlent : l.tail.length = L - 1 := by simp [List.length_tail, hl]
    have hlenapp : (l.tail ++ [({ price := z.price + 1, depth := d0 } : Level)]).length = L := by
      simp [hlent]; omega
    rw [hlenapp] at hmem
    have hk : L - (j + 1) ≤ l.tail.length := by omega
    rw [List.drop_append_of_le_length hk] at hmem
    rcases List.mem_append.mp hmem with h | h
    · have h2 : lv ∈ l.drop (1 + (L - (j + 1))) := by
        have : l.tail = l.drop 1 := (List.drop_one l).symm
        rw [this, List.drop_drop] at h
        exact h
      have h3 : lv ∈ l.drop (l.length - j) := by
        have hsplit : l.drop (1 + (L - (j + 1))) =
            (l.drop (l.length - j)).drop (1 + (L - (j + 1)) - (l.length - j)) := by
          rw [List.drop_drop]
          congr 1
          omega
        rw [hsplit] at h2
        exact List.drop_subset _ _ h2
      exact hs lv h3
    · simp at h
      rw [h]
      exact hd0

theorem shiftStepBid_sorted_bound (L : Nat) (d0 B : Int) (hL : 1 ≤ L) (hd0 : 0 < d0) :
    ∀ l : List Level,
      l.length = L ∧ BidSorted l ∧ DepthsNonneg l ∧ headPrice l ≤ B →
      (shiftStepBid L d0 l).length = L ∧ BidSorted (shiftStepBid L d0 l) ∧
        DepthsNonneg (shiftStepBid L d0 l) ∧ headPrice (shiftStepBid L d0 l) ≤ B := by
  intro l ⟨hl, hsort, hdep, hB⟩
  refine ⟨shiftStepBid_length L d0 hL l hl, ?_⟩
  by_cases h1 : L ≤ 1
  · cases l with
    | nil => simp at hl; omega
    | cons x xs =>
      have hxs : xs = [] := by
        simp only [List.length_cons] at hl
        exact List.length_eq_zero.mp (by omega)
      subst hxs
      simp only [shiftStepBid, if_pos h1]
      refine ⟨List.chain'_singleton _, ?_, ?_⟩
      · intro lv hm
        simp at hm
        rw [hm]
        exact Int.le_of_lt hd0
      · simp only [headPrice] at hB ⊢
        omega
  · cases l with
    | nil => simp at hl; omega
    | cons x xs =>
      cases xs with
      | nil => simp at hl; omega
      | cons y ys =>
        obtain ⟨z, hz⟩ := Option.isSome_iff_exists.mp
          ((List.getLast?_isSome (l := y :: ys)).mpr (by simp))
        have hzl : (x :: y :: ys).getLast? = some z := by
          rw [List.getLast?_cons_cons]; exact hz
        simp only [shiftStepBid, if_neg h1, hzl, List.tail_cons]
        have hpl : priceList ((y :: ys) ++ [({ price := z.price - 1, depth := d0 } : Level)]) =
            priceList (y :: ys) ++ [z.price - 1] := by
          simp [priceList]
        constructor
        · unfold BidSorted
          rw [hpl, List.chain'_append]
          refine ⟨(((List.chain'_cons).mp hsort).2 : _), List.chain'_singleton _, ?_⟩
          intro a ha c hc
          simp at hc
          have hga : (priceList (y :: ys)).getLast? = some z.price := by
            unfold priceList
            rw [List.getLast?_map, hz]
            rfl
          rw [hga] at ha
          simp at ha
          omega
        · constructor
          · intro lv hm
            rcases List.mem_append.mp hm with h | h
            · exact hdep lv (List.mem_cons_of_mem x h)
            · simp at h
              rw [h]
              exact Int.le_of_lt hd0
          · have hyx : y.price < x.price := by
              have := (List.chain'_cons.mp (hsort : List.Chain' _
                (x.price :: y.price :: priceList ys))).1
              exact this
            simp only [List.cons_append, headPrice] at hB ⊢
            omega

theorem shiftStepAsk_sorted_bound (L : Nat) (d0 B : Int) (hL : 1 ≤ L) (hd0 : 0 < d0) :
    ∀ l : List Level,
      l.length = L ∧ AskSorted l ∧ DepthsNonneg l ∧ B ≤ headPrice l →
      (shiftStepAsk L d0 l).length = L ∧ AskSorted (shiftStepAsk L d0 l) ∧
        DepthsNonneg (shiftStepAsk L d0 l) ∧ B ≤ headPrice (shiftStepAsk L d0 l) := by
  intro l ⟨hl, hsort, hdep, hB⟩
  refine ⟨shiftStepAsk_length L d0 hL l hl, ?_⟩
  by_cases h1 : L ≤ 1
  · cases l with
    | nil => simp at hl; omega
    | cons x xs =>
      have hxs : xs = [] := by
        simp only [List.length_cons] at hl
        exact List.length_eq_zero.mp (by omega)
      subst hxs
      simp only [shiftStepAsk, if_pos h1]
      refine ⟨List.chain'_singleton _, ?_, ?_⟩
      · intro lv hm
        simp at hm
        rw [hm]
        exact Int.le_of_lt hd0
      · simp only [headPrice] at hB ⊢
        omega
  · cases l with
    | nil => simp at hl; omega
    | cons x xs =>
      cases xs with
      | nil => simp at hl; omega
      | cons y ys =>
        obtain ⟨z, hz⟩ := Option.isSome_iff_exists.mp
          ((List.getLast?_isSome (l := y :: ys)).mpr (by simp))
        have hzl : (x :: y :: ys).getLast? = some z := by
          rw [List.getLast?_cons_cons]; exact hz
        simp only [shiftStepAsk, if_neg h1, hzl, List.tail_cons]
        have hpl : priceList ((y :: ys) ++ [({ price := z.price + 1, depth := d0 } : Level)]) =
            priceList (y :: ys) ++ [z.price + 1] := by
          simp [priceList]
        constructor
        · unfold AskSorted
          rw [hpl, List.chain'_append]
          refine ⟨(((List.chain'_cons).mp hsort).2 : _), List.chain'_singleton _, ?_⟩
          intro a ha c hc
          simp at hc
          have hga : (priceList (y :: ys)).getLast? = some z.price := by
            unfold priceList
            rw [List.getLast?_map, hz]
            rfl
          rw [hga] at ha
          simp at ha
          omega
        · constructor
          · intro lv hm
            rcases List.mem_append.mp hm with h | h
            · exact hdep lv (List.mem_cons_of_mem x h)
            · simp at h
              rw [h]
              exact Int.le_of_lt hd0
          · have hyx : x.price < y.price := by
              have := (List.chain'_cons.mp (hsort : List.Chain' _
                (x.price :: y.price :: priceList ys))).1
              exact this
            simp only [List.cons_append, headPrice] at hB ⊢
            omega

/-- Everything `_shift_bid` guarantees: lengths, sortedness, non-negative
depths, a head price no higher than before, and — the key fact, using
`L ≤ 64` — a strictly positive depth at the new best bid. -/
theorem shiftBid_props (L : Nat) (d0 B : Int) (hL1 : 1 ≤ L) (hL64 : L ≤ 64) (hd0 : 0 < d0) :
    ∀ l : List Level, l.length = L → BidSorted l → DepthsNonneg l → headPrice l ≤ B →
      (shiftBid L d0 l).length = L ∧ BidSorted (shiftBid L d0 l) ∧
      DepthsNonneg (shiftBid L d0 l) ∧ headPrice (shiftBid L d0 l) ≤ B ∧
      0 < headDepth (shiftBid L d0 l) := by
  intro l hl hsort hdep hB
  have hpres := shiftLoop_preserves (shiftStepBid L d0)
    (fun l' => l'.length = L ∧ BidSorted l' ∧ DepthsNonneg l' ∧ headPrice l' ≤ B)
    (shiftStepBid_sorted_bound L d0 B hL1 hd0) 64 l ⟨hl, hsort, hdep, hB⟩
  have hpos := shiftLoop_head_pos (shiftStepBid L d0) L hL1
    (shiftStepBid_length L d0 hL1) (shiftStepBid_suffpos L d0 hL1 hd0) 64 0 l hl
    (by intro lv hm; rw [Nat.sub_zero, List.drop_length] at hm; simp at hm)
    (by omega)
  exact ⟨hpres.1, hpres.2.1, hpres.2.2.1, hpres.2.2.2, hpos⟩

/-- Mirror of `shiftBid_props` for `_shift_ask`: the head price never
decreases and the new best ask depth is positive. -/
theorem shiftAsk_props (L : Nat) (d0 B : Int) (hL1 : 1 ≤ L) (hL64 : L ≤ 64) (hd0 : 0 < d0) :
    ∀ l : List Level, l.length = L → AskSorted l → DepthsNonneg l → B ≤ headPrice l →
      (shiftAsk L d0 l).length = L ∧ AskSorted (shiftAsk L d0 l) ∧
      DepthsNonneg (shiftAsk L d0 l) ∧ B ≤ headPrice (shiftAsk L d0 l) ∧
      0 < headDepth (shiftAsk L d0 l) := by
  intro l hl hsort hdep hB
  have hpres := shiftLoop_preserves (shiftStepAsk L d0)
    (fun l' => l'.length = L ∧ AskSorted l' ∧ DepthsNonneg l' ∧ B ≤ headPrice l')
    (shiftStepAsk_sorted_bound L d0 B hL1 hd0) 64 l ⟨hl, hsort, hdep, hB⟩
  have hpos := shiftLoop_head_pos (shiftStepAsk L d0) L hL1
    (shiftStepAsk_length L d0 hL1) (shiftStepAsk_suffpos L d0 hL1 hd0) 64 0 l hl
    (by intro lv hm; rw [Nat.sub_zero, List.drop_length] at hm; simp at hm)
    (by omega)
  exact ⟨hpres.1, hpres.2.1, hpres.2.2.1, hpres.2.2.2, hpos⟩

theorem improveBid_props (p q : Int) (l : List Level) (hne : l ≠ []) (hq : 0 < q)
    (hsort : BidSorted l) (hdep : DepthsNonneg l) (hp : headPrice l < p) :
    (improveBid p q l).length = l.length ∧ BidSorted (improveBid p q l) ∧
    DepthsNonneg (improveBid p q l) ∧ headPrice (improveBid p q l) = p ∧
    headDepth (improveBid p q l) = q := by
  cases l with
  | nil => exact absurd rfl hne
  | cons x xs =>
    have himp : improveBid p q (x :: xs) =
        { price := p, depth := q } :: (x :: xs).dropLast := rfl
    rw [himp]
    refine ⟨by simp, ?_, ?_, rfl, rfl⟩
    · unfold BidSorted priceList
      rw [List.map_cons]
      rw [List.chain'_cons']
      refine ⟨?_, by rw [List.map_dropLast]; exact chain'_dropLast _ _ hsort⟩
      intro y hy
      rw [List.head?_map] at hy
      cases hd : (x :: xs).dropLast.head? with
      | none => rw [hd] at hy; simp at hy
      | some w =>
        rw [hd] at hy
        simp at hy
        have hw : w = x := by
          cases xs with
          | nil => simp at hd
          | cons u us =>
            rw [List.dropLast_cons₂] at hd
            simp at hd
            exact hd.symm
        rw [← hy, hw]
        simpa [headPrice] using hp
    · intro lv hm
      rcases List.mem_cons.mp hm with h | h
      · rw [h]; exact Int.le_of_lt hq
      · exact hdep lv (mem_dropLast _ _ h)

theorem improveAsk_props (p q : Int) (l : List Level) (hne : l ≠ []) (hq : 0 < q)
    (hsort : AskSorted l) (hdep : DepthsNonneg l) (hp : p < headPrice l) :
    (improveAsk p q l).length = l.length ∧ AskSorted (improveAsk p q l) ∧
    DepthsNonneg (improveAsk p q l) ∧ headPrice (improveAsk p q l) = p ∧
    headDepth (improveAsk p q l) = q := by
  cases l with
  | nil => exact absurd rfl hne
  | cons x xs =>
    have himp : improveAsk p q (x :: xs) =
        { price := p, depth := q } :: (x :: xs).dropLast := rfl
    rw [himp]
    refine ⟨by simp, ?_, ?_, rfl, rfl⟩
    · unfold AskSorted priceList
      rw [List.map_cons]
      rw [List.chain'_cons']
      refine ⟨?_, by rw [List.map_dropLast]; exact chain'_dropLast _ _ hsort⟩
      intro y hy
      rw [List.head?_map] at hy
      cases hd : (x :: xs).dropLast.head? with
      | none => rw [hd] at hy; simp at hy
      | some w =>
        rw [hd] at hy
        simp at hy
        have hw : w = x := by
          cases xs with
          | nil => simp at hd
          | cons u us =>
            rw [List.dropLast_cons₂] at hd
            simp at hd
            exact hd.symm
        rw [← hy, hw]
        simpa [headPrice] using hp
    · intro lv hm
      rcases List.mem_cons.mp hm with h | h
      · rw [h]; exact Int.le_of_lt hq
      · exact hdep lv (mem_dropLast _ _ h)

theorem priceList_decHead (l : List Level) : priceList (decHead l) = priceList l := by
  cases l with
  | nil => rfl
  | cons x xs => rfl

theorem length_decHead (l : List Level) : (decHead l).length = l.length := by
  cases l with
  | nil => rfl
  | cons x xs => rfl

theorem headPrice_decHead (l : List Level) : headPrice (decHead l) = headPrice l := by
  cases l with
  | nil => rfl
  | cons x xs => rfl

theorem headDepth_decHead (l : List Level) (h : l ≠ []) :
    headDepth (decHead l) = headDepth l - 1 := by
  cases l with
  | nil => exact absurd rfl h
  | cons x xs => rfl

theorem depthsNonneg_decHead (l : List Level) (hdep : DepthsNonneg l)
    (hpos : 0 < headDepth l) : DepthsNonneg (decHead l) := by
  cases l with
  | nil => intro lv hm; simp [decHead] at hm
  | cons x xs =>
    intro lv hm
    rcases List.mem_cons.mp hm with h | h
    · rw [h]
      simp only [headDepth] at hpos
      simp
      omega
    · exact hdep lv (List.mem_cons_of_mem x h)

theorem bidSorted_of_priceList_eq {l l' : List Level}
    (h : priceList l' = priceList l) (hs : BidSorted l) : BidSorted l' := by
  unfold BidSorted
  rw [h]
  exact hs

theorem askSorted_of_priceList_eq {l l' : List Level}
    (h : priceList l' = priceList l) (hs : AskSorted l) : AskSorted l' := by
  unfold AskSorted
  rw [h]
  exact hs

theorem bids_ne_nil_of_INV {b : MiniBook} (h : INV b) : b.bids ≠ [] := by
  obtain ⟨hbl, -, hL1, -⟩ := h
  intro hh
  rw [hh] at hbl
  simp at hbl
  omega

theorem asks_ne_nil_of_INV {b : MiniBook} (h : INV b) : b.asks ≠ [] := by
  obtain ⟨-, hal, hL1, -⟩ := h
  intro hh
  rw [hh] at hal
  simp at hal
  omega

theorem INV_improve_bid (b : MiniBook) (p q : Int) (h : INV b) (hq : 0 < q)
    (h1 : headPrice b.bids < p) (h2 : p < headPrice b.asks) :
    INV { b with bids := improveBid p q b.bids } := by
  have hbne := bids_ne_nil_of_INV h
  obtain ⟨hbl, hal, hL1, hL64, hd0, hbs, has, hcross, hbd, had, hbh, hah⟩ := h
  obtain ⟨plen, psort, pdep, phead, pdepth⟩ :=
    improveBid_props p q b.bids hbne hq hbs hbd h1
  refine ⟨plen.trans hbl, hal, hL1, hL64, hd0, psort, has, ?_, pdep, had, ?_, hah⟩
  · show headPrice (improveBid p q b.bids) < headPrice b.asks
    rw [phead]
    exact h2
  · show 0 < headDepth (improveBid p q b.bids)
    rw [pdepth]
    exact hq

theorem INV_improve_ask (b : MiniBook) (p q : Int) (h : INV b) (hq : 0 < q)
    (h1 : headPrice b.bids < p) (h2 : p < headPrice b.asks) :
    INV { b with asks := improveAsk p q b.asks } := by
  have hane := asks_ne_nil_of_INV h
  obtain ⟨hbl, hal, hL1, hL64, hd0, hbs, has, hcross, hbd, had, hbh, hah⟩ := h
  obtain ⟨plen, psort, pdep, phead, pdepth⟩ :=
    improveAsk_props p q b.asks hane hq has had h2
  refine ⟨hbl, plen.trans hal, hL1, hL64, hd0, hbs, psort, ?_, hbd, pdep, hbh, ?_⟩
  · show headPrice b.bids < headPrice (improveAsk p q b.asks)
    rw [phead]
    exact h1
  · show 0 < headDepth (improveAsk p q b.asks)
    rw [pdepth]
    exact hq

theorem INV_add_bid (b : MiniBook) (i : Nat) (q : Int) (h : INV b) (hq : 0 < q) :
    INV { b with bids := addDepthAt b.bids i q } := by
  have hbne := bids_ne_nil_of_INV h
  obtain ⟨hbl, hal, hL1, hL64, hd0, hbs, has, hcross, hbd, had, hbh, hah⟩ := h
  unfold addDepthAt
  refine ⟨?_, hal, hL1, hL64, hd0, ?_, has, ?_, ?_, had, ?_, hah⟩
  · show (setDepthAt b.bids i (depthAt b.bids i + q)).length = b.num_levels
    rw [length_setDepthAt]
    exact hbl
  · exact bidSorted_of_priceList_eq (priceList_setDepthAt _ _ _) hbs
  · show headPrice (setDepthAt b.bids i (depthAt b.bids i + q)) < headPrice b.asks
    rw [headPrice_setDepthAt]
    exact hcross
  · intro lv hm
    rcases mem_setDepthAt _ _ _ _ hm with h1 | h1
    · exact hbd lv h1
    · rw [h1]
      have := depthAt_nonneg b.bids i hbd
      omega
  · show 0 < headDepth (setDepthAt b.bids i (depthAt b.bids i + q))
    cases i with
    | zero =>
      rw [headDepth_setDepthAt_zero _ _ hbne, depthAt_zero_eq_headDepth _ hbne]
      omega
    | succ j =>
      rw [headDepth_setDepthAt_succ]
      exact hbh

theorem INV_add_ask (b : MiniBook) (i : Nat) (q : Int) (h : INV b) (hq : 0 < q) :
    INV { b with asks := addDepthAt b.asks i q } := by
  have hane := asks_ne_nil_of_INV h
  obtain ⟨hbl, hal, hL1, hL64, hd0, hbs, has, hcross, hbd, had, hbh, hah⟩ := h
  unfold addDepthAt
  refine ⟨hbl, ?_, hL1, hL64, hd0, hbs, ?_, ?_, hbd, ?_, hbh, ?_⟩
  · show (setDepthAt b.asks i (depthAt b.asks i + q)).length = b.num_levels
    rw [length_setDepthAt]
    exact hal
  · exact askSorted_of_priceList_eq (priceList_setDepthAt _ _ _) has
  · show headPrice b.bids < headPrice (setDepthAt b.asks i (depthAt b.asks i + q))
    rw [headPrice_setDepthAt]
    exact hcross
  · intro lv hm
    rcases mem_setDepthAt _ _ _ _ hm with h1 | h1
    · exact had lv h1
    · rw [h1]
      have := depthAt_nonneg b.asks i had
      omega
  · show 0 < headDepth (setDepthAt b.asks i (depthAt b.asks i + q))
    cases i with
    | zero =>
      rw [headDepth_setDepthAt_zero _ _ hane, depthAt_zero_eq_headDepth _ hane]
      omega
    | succ j =>
      rw [headDepth_setDepthAt_succ]
      exact hah

theorem INV_cancel_bid_shift (b : MiniBook) (i : Nat) (q : Int) (h : INV b) :
    INV { b with bids := (shiftBid b.num_levels b.initial_depth
      (setDepthAt b.bids i (max 0 (depthAt b.bids i - q)))) } := by
  obtain ⟨hbl, hal, hL1, hL64, hd0, hbs, has, hcross, hbd, had, hbh, hah⟩ := h
  have hlen' : (setDepthAt b.bids i (max 0 (depthAt b.bids i - q))).length = b.num_levels := by
    rw [length_setDepthAt]; exact hbl
  have hsort' := bidSorted_of_priceList_eq
    (priceList_setDepthAt b.bids i (max 0 (depthAt b.bids i - q))) hbs
  have hdep' : DepthsNonneg (setDepthAt b.bids i (max 0 (depthAt b.bids i - q))) := by
    intro lv hm
    rcases mem_setDepthAt _ _ _ _ hm with h1 | h1
    · exact hbd lv h1
    · rw [h1]; exact le_max_left 0 _
  have hhead' : headPrice (setDepthAt b.bids i (max 0 (depthAt b.bids i - q))) ≤
      headPrice b.bids := by
    rw [headPrice_setDepthAt]
  obtain ⟨slen, ssort, sdep, shead, sdepth⟩ :=
    shiftBid_props b.num_levels b.initial_depth (headPrice b.bids) hL1 hL64 hd0
      _ hlen' hsort' hdep' hhead'
  exact ⟨slen, hal, hL1, hL64, hd0, ssort, has, lt_of_le_of_lt shead hcross,
    sdep, had, sdepth, hah⟩

theorem INV_cancel_ask_shift (b : MiniBook) (i : Nat) (q : Int) (h : INV b) :
    INV { b with asks := (shiftAsk b.num_levels b.initial_depth
      (setDepthAt b.asks i (max 0 (depthAt b.asks i - q)))) } := by
  obtain ⟨hbl, hal, hL1, hL64, hd0, hbs, has, hcross, hbd, had, hbh, hah⟩ := h
  have hlen' : (setDepthAt b.asks i (max 0 (depthAt b.asks i - q))).length = b.num_levels := by
    rw [length_setDepthAt]; exact hal
  have hsort' := askSorted_of_priceList_eq
    (priceList_setDepthAt b.asks i (max 0 (depthAt b.asks i - q))) has
  have hdep' : DepthsNonneg (setDepthAt b.asks i (max 0 (depthAt b.asks i - q))) := by
    intro lv hm
    rcases mem_setDepthAt _ _ _ _ hm with h1 | h1
    · exact had lv h1
    · rw [h1]; exact le_max_left 0 _
  have hhead' : headPrice b.asks ≤
      headPrice (setDepthAt b.asks i (max 0 (depthAt b.asks i - q))) := by
    rw [headPrice_setDepthAt]
  obtain ⟨slen, ssort, sdep, shead, sdepth⟩ :=
    shiftAsk_props b.num_levels b.initial_depth (headPrice b.asks) hL1 hL64 hd0
      _ hlen' hsort' hdep' hhead'
  exact ⟨hbl, slen, hL1, hL64, hd0, hbs, ssort, lt_of_lt_of_le hcross shead,
    hbd, sdep, hbh, sdepth⟩

theorem INV_cancel_bid_noshift (b : MiniBook) (i : Nat) (q : Int) (h : INV b)
    (hns : ¬(i = 0 ∧
      depthAt (setDepthAt b.bids i (max 0 (depthAt b.bids i - q))) 0 = 0 ∧
      0 < depthAt b.bids i)) :
    INV { b with bids := setDepthAt b.bids i (max 0 (depthAt b.bids i - q)) } := by
  have hbne := bids_ne_nil_of_INV h
  obtain ⟨hbl, hal, hL1, hL64, hd0, hbs, has, hcross, hbd, had, hbh, hah⟩ := h
  refine ⟨?_, hal, hL1, hL64, hd0,
    bidSorted_of_priceList_eq (priceList_setDepthAt _ _ _) hbs, has, ?_, ?_, had, ?_, hah⟩
  · show (setDepthAt b.bids i (max 0 (depthAt b.bids i - q))).length = b.num_levels
    rw [length_setDepthAt]; exact hbl
  · show headPrice (setDepthAt b.bids i (max 0 (depthAt b.bids i - q))) < headPrice b.asks
    rw [headPrice_setDepthAt]; exact hcross
  · intro lv hm
    rcases mem_setDepthAt _ _ _ _ hm with h1 | h1
    · exact hbd lv h1
    · rw [h1]; exact le_max_left 0 _
  · show 0 < headDepth (setDepthAt b.bids i (max 0 (depthAt b.bids i - q)))
    cases i with
    | zero =>
      have hne' : setDepthAt b.bids 0 (max 0 (depthAt b.bids 0 - q)) ≠ [] := by
        intro hc
        have hlc := congrArg List.length hc
        rw [length_setDepthAt] at hlc
        simp at hlc
        exact hbne hlc
      have hw : 0 < depthAt b.bids 0 := by
        rw [depthAt_zero_eq_headDepth _ hbne]
        exact hbh
      have hnz : depthAt (setDepthAt b.bids 0 (max 0 (depthAt b.bids 0 - q))) 0 ≠ 0 :=
        fun hc => hns ⟨rfl, hc, hw⟩
      rw [depthAt_zero_eq_headDepth _ hne'] at hnz
      rw [headDepth_setDepthAt_zero _ _ hbne] at hnz ⊢
      exact lt_of_le_of_ne (le_max_left 0 _) (Ne.symm hnz)
    | succ j =>
      rw [headDepth_setDepthAt_succ]
      exact hbh

theorem INV_cancel_ask_noshift (b : MiniBook) (i : Nat) (q : Int) (h : INV b)
    (hns : ¬(i = 0 ∧
      depthAt (setDepthAt b.asks i (max 0 (depthAt b.asks i - q))) 0 = 0 ∧
      0 < depthAt b.asks i)) :
    INV { b with asks := setDepthAt b.asks i (max 0 (depthAt b.asks i - q)) } := by
  have hane := asks_ne_nil_of_INV h
  obtain ⟨hbl, hal, hL1, hL64, hd0, hbs, has, hcross, hbd, had, hbh, hah⟩ := h
  refine ⟨hbl, ?_, hL1, hL64, hd0, hbs,
    askSorted_of_priceList_eq (priceList_setDepthAt _ _ _) has, ?_, hbd, ?_, hbh, ?_⟩
  · show (setDepthAt b.asks i (max 0 (depthAt b.asks i - q))).length = b.num_levels
    rw [length_setDepthAt]; exact hal
  · show headPrice b.bids < headPrice (setDepthAt b.asks i (max 0 (depthAt b.asks i - q)))
    rw [headPrice_setDepthAt]; exact hcross
  · intro lv hm
    rcases mem_setDepthAt _ _ _ _ hm with h1 | h1
    · exact had lv h1
    · rw [h1]; exact le_max_left 0 _
  · show 0 < headDepth (setDepthAt b.asks i (max 0 (depthAt b.asks i - q)))
    cases i with
    | zero =>
      have hne' : setDepthAt b.asks 0 (max 0 (depthAt b.asks 0 - q)) ≠ [] := by
        intro hc
        have hlc := congrArg List.length hc
        rw [length_setDepthAt] at hlc
        simp at hlc
        exact hane hlc
      have hw : 0 < depthAt b.asks 0 := by
        rw [depthAt_zero_eq_headDepth _ hane]
        exact hah
      have hnz : depthAt (setDepthAt b.asks 0 (max 0 (depthAt b.asks 0 - q))) 0 ≠ 0 :=
        fun hc => hns ⟨rfl, hc, hw⟩
      rw [depthAt_zero_eq_headDepth _ hne'] at hnz
      rw [headDepth_setDepthAt_zero _ _ hane] at hnz ⊢
      exact lt_of_le_of_ne (le_max_left 0 _) (Ne.symm hnz)
    | succ j =>
      rw [headDepth_setDepthAt_succ]
      exact hah

theorem INV_exec_buy_shift (b : MiniBook) (h : INV b) (hpos : 0 < headDepth b.asks) :
    INV { b with asks := shiftAsk b.num_levels b.initial_depth (decHead b.asks) } := by
  have hane := asks_ne_nil_of_INV h
  obtain ⟨hbl, hal, hL1, hL64, hd0, hbs, has, hcross, hbd, had, hbh, hah⟩ := h
  have hlen' : (decHead b.asks).length = b.num_levels := by
    rw [length_decHead]; exact hal
  have hsort' := askSorted_of_priceList_eq (priceList_decHead b.asks) has
  have hdep' := depthsNonneg_decHead b.asks had hpos
  have hhead' : headPrice b.asks ≤ headPrice (decHead b.asks) := by
    rw [headPrice_decHead]
  obtain ⟨slen, ssort, sdep, shead, sdepth⟩ :=
    shiftAsk_props b.num_levels b.initial_depth (headPrice b.asks) hL1 hL64 hd0
      _ hlen' hsort' hdep' hhead'
  exact ⟨hbl, slen, hL1, hL64, hd0, hbs, ssort, lt_of_lt_of_le hcross shead,
    hbd, sdep, hbh, sdepth⟩

theorem INV_exec_buy_noshift (b : MiniBook) (h : INV b) (hpos : 0 < headDepth b.asks)
    (hnz : headDepth (decHead b.asks) ≠ 0) :
    INV { b with asks := decHead b.asks } := by
  have hane := asks_ne_nil_of_INV h
  obtain ⟨hbl, hal, hL1, hL64, hd0, hbs, has, hcross, hbd, had, hbh, hah⟩ := h
  refine ⟨hbl, ?_, hL1, hL64, hd0, hbs,
    askSorted_of_priceList_eq (priceList_decHead _) has, ?_, hbd,
    depthsNonneg_decHead b.asks had hpos, hbh, ?_⟩
  · show (decHead b.asks).length = b.num_levels
    rw [length_decHead]; exact hal
  · show headPrice b.bids < headPrice (decHead b.asks)
    rw [headPrice_decHead]; exact hcross
  · show 0 < headDepth (decHead b.asks)
    rw [headDepth_decHead _ hane] at hnz ⊢
    omega

theorem INV_exec_sell_shift (b : MiniBook) (h : INV b) (hpos : 0 < headDepth b.bids) :
    INV { b with bids := shiftBid b.num_levels b.initial_depth (decHead b.bids) } := by
  have hbne := bids_ne_nil_of_INV h
  obtain ⟨hbl, hal, hL1, hL64, hd0, hbs, has, hcross, hbd, had, hbh, hah⟩ := h
  have hlen' : (decHead b.bids).length = b.num_levels := by
    rw [length_decHead]; exact hbl
  have hsort' := bidSorted_of_priceList_eq (priceList_decHead b.bids) hbs
  have hdep' := depthsNonneg_decHead b.bids hbd hpos
  have hhead' : headPrice (decHead b.bids) ≤ headPrice b.bids := by
    rw [headPrice_decHead]
  obtain ⟨slen, ssort, sdep, shead, sdepth⟩ :=
    shiftBid_props b.num_levels b.initial_depth (headPrice b.bids) hL1 hL64 hd0
      _ hlen' hsort' hdep' hhead'
  exact ⟨slen, hal, hL1, hL64, hd0, ssort, has, lt_of_le_of_lt shead hcross,
    sdep, had, sdepth, hah⟩

theorem INV_exec_sell_noshift (b : MiniBook) (h : INV b) (hpos : 0 < headDepth b.bids)
    (hnz : headDepth (decHead b.bids) ≠ 0) :
    INV { b with bids := decHead b.bids } := by
  have hbne := bids_ne_nil_of_INV h
  obtain ⟨hbl, hal, hL1, hL64, hd0, hbs, has, hcross, hbd, had, hbh, hah⟩ := h
  refine ⟨?_, hal, hL1, hL64, hd0,
    bidSorted_of_priceList_eq (priceList_decHead _) hbs, has, ?_,
    depthsNonneg_decHead b.bids hbd hpos, had, ?_, hah⟩
  · show (decHead b.bids).length = b.num_levels
    rw [length_decHead]; exact hbl
  · show headPrice (decHead b.bids) < headPrice b.asks
    rw [headPrice_decHead]; exact hcross
  · show 0 < headDepth (decHead b.bids)
    rw [headDepth_decHead _ hbne] at hnz ⊢
    omega

theorem apply_INV (b : MiniBook) (t : Nat) (p q : Int) (hq : 1 ≤ q) (h : INV b) :
    INV (apply b t p q) := by
  simp only [apply]
  split_ifs with h1 h2 h3 h4 h5 h6 h7 h8 h9 h10 h11 h12 h13 h14 h15 h16 h17 h18
  · exact INV_improve_bid b p q h (by omega) h2.1 h2.2
  · exact INV_add_bid b (bidIndex b p).toNat q h (by omega)
  · exact h
  · exact INV_improve_ask b p q h (by omega) h5.2 h5.1
  · exact INV_add_ask b (askIndex b p).toNat q h (by omega)
  · exact h
  · exact INV_cancel_bid_shift b (bidIndex b p).toNat q h
  · exact INV_cancel_bid_noshift b (bidIndex b p).toNat q h h9
  · exact h
  · exact INV_cancel_ask_shift b (askIndex b p).toNat q h
  · exact INV_cancel_ask_noshift b (askIndex b p).toNat q h h12
  · exact h
  · exact INV_exec_buy_shift b h h14.2
  · exact INV_exec_buy_noshift b h h14.2 h15
  · exact h
  · exact INV_exec_sell_shift b h h17.2
  · exact INV_exec_sell_noshift b h h17.2 h18
  · exact h
  · exact h

theorem chain'_map_range {R : Int → Int → Prop} (f : Nat → Int) (L : Nat)
    (hf : ∀ k, k + 1 < L → R (f k) (f (k + 1))) :
    List.Chain' R ((List.range L).map f) := by
  rw [List.chain'_iff_get]
  intro i hlen
  simp only [List.get_eq_getElem, List.getElem_map, List.getElem_range]
  apply hf
  simp only [List.length_map, List.length_range] at hlen
  omega

/-- A freshly constructed book with positive depth and spread and between 1
and 64 levels per side satisfies the inductive invariant. -/
theorem mkBook_INV (p0 spread d0 : Int) (L : Nat) (hd0 : 0 < d0) (hs : 0 < spread)
    (hL1 : 1 ≤ L) (hL64 : L ≤ 64) : INV (mkBook p0 L spread d0) := by
  obtain ⟨n, rfl⟩ : ∃ n, L = n + 1 := ⟨L - 1, by omega⟩
  have hbids : (mkBook p0 (n + 1) spread d0).bids =
      { price := p0 - Int.fdiv spread 2 - (0 : Nat), depth := d0 } ::
        (List.range n).map (fun k =>
          { price := p0 - Int.fdiv spread 2 - (Nat.succ k : Nat), depth := d0 }) := by
    simp only [mkBook, List.range_succ_eq_map, List.map_cons, List.map_map]
    rfl
  have hasks : (mkBook p0 (n + 1) spread d0).asks =
      { price := p0 + spread - Int.fdiv spread 2 + (0 : Nat), depth := d0 } ::
        (List.range n).map (fun k =>
          { price := p0 + spread - Int.fdiv spread 2 + (Nat.succ k : Nat), depth := d0 }) := by
    simp only [mkBook, List.range_succ_eq_map, List.map_cons, List.map_map]
    rfl
  refine ⟨?_, ?_, ?_, ?_, ?_, ?_, ?_, ?_, ?_, ?_, ?_, ?_⟩
  · simp [mkBook]
  · simp [mkBook]
  · show 1 ≤ n + 1
    omega
  · show n + 1 ≤ 64
    omega
  · show 0 < d0
    exact hd0
  · unfold BidSorted priceList
    simp only [mkBook, List.map_map]
    apply chain'_map_range
    intro k hk
    simp only [Function.comp]
    push_cast
    omega
  · unfold AskSorted priceList
    simp only [mkBook, List.map_map]
    apply chain'_map_range
    intro k hk
    simp only [Function.comp]
    push_cast
    omega
  · rw [hbids, hasks]
    simp only [headPrice]
    simp
    omega
  · intro lv hm
    simp only [mkBook] at hm
    obtain ⟨k, -, rfl⟩ := List.mem_map.mp hm
    exact Int.le_of_lt hd0
  · intro lv hm
    simp only [mkBook] at hm
    obtain ⟨k, -, rfl⟩ := List.mem_map.mp hm
    exact Int.le_of_lt hd0
  · rw [hbids]
    exact hd0
  · rw [hasks]
    exact hd0

/-- The invariant holds after replaying any event list whose quantities are
all at least 1. -/
theorem replay_INV (b : MiniBook) (events : List (Nat × Int × Int)) (h : INV b)
    (hq : ∀ e ∈ events, 1 ≤ e.2.2) : INV (replay b events) := by
  induction events generalizing b with
  | nil => exact h
  | cons e es ih =>
    exact ih (apply b e.1 e.2.1 e.2.2)
      (apply_INV b e.1 e.2.1 e.2.2 (hq e (List.mem_cons_self e es)) h)
      (fun e' he' => hq e' (List.mem_cons_of_mem e he'))

set_option maxRecDepth 4000 in
/-- C1 (counterexample to the claim as stated): the startup book has
`initial_depth = 5 > 0` and `initial_spread = 2 > 0`, yet applying a single
ADD_BID with `qty = 0` (a legal `u32` quantity) improves the book with a
zero-depth best bid, violating `bids[0].depth > 0`.  Moreover with
`levels_per_side = 65` the 64-iteration shift cascade is exhausted before
reaching a positive slot: zeroing slots 1..64 by cancels (all with
`qty = 5 ≥ 1`) and then cancelling the best bid leaves `bids[0].depth = 0`. -/
theorem spec_c1_counterexample :
    ((0 : Int) < 5 ∧ (0 : Int) < 2 ∧
      headDepth (apply (mkBook 10000 5 2 5) 0 10000 0).bids = 0) ∧
    ((∀ e ∈ ((List.range 64).map
        (fun i => ((2 : Nat), (9998 - (i : Int) : Int), (5 : Int)))) ++
        [(2, 9999, 5)], 1 ≤ e.2.2) ∧
      headDepth (replay (mkBook 10000 65 2 5)
        (((List.range 64).map
          (fun i => ((2 : Nat), (9998 - (i : Int) : Int), (5 : Int)))) ++
          [(2, 9999, 5)])).bids = 0) := by
  refine ⟨⟨by decide, by decide, by decide⟩, ⟨by decide, by decide⟩⟩

/-- C1 (amended): for every book built with `initial_depth > 0`,
`initial_spread > 0` and `1 ≤ levels_per_side ≤ 64`, and every event
sequence whose quantities are all ≥ 1, the state after replay satisfies the
book invariants: no crossed book, all depths non-negative, and positive
depth at both best levels.  (Replaying every prefix of an event list covers
every reachable state.) -/
theorem spec_c1_book_invariants (p0 spread d0 : Int) (L : Nat)
    (events : List (Nat × Int × Int)) (hd0 : 0 < d0) (hs : 0 < spread)
    (hL1 : 1 ≤ L) (hL64 : L ≤ 64) (hq : ∀ e ∈ events, 1 ≤ e.2.2) :
    headPrice (replay (mkBook p0 L spread d0) events).bids <
      headPrice (replay (mkBook p0 L spread d0) events).asks ∧
    (∀ lv ∈ (replay (mkBook p0 L spread d0) events).bids, 0 ≤ lv.depth) ∧
    (∀ lv ∈ (replay (mkBook p0 L spread d0) events).asks, 0 ≤ lv.depth) ∧
    0 < headDepth (replay (mkBook p0 L spread d0) events).bids ∧
    0 < headDepth (replay (mkBook p0 L spread d0) events).asks := by
  obtain ⟨-, -, -, -, -, -, -, hcross, hbd, had, hbh, hah⟩ :=
    replay_INV (mkBook p0 L spread d0) events
      (mkBook_INV p0 spread d0 L hd0 hs hL1 hL64) hq
  exact ⟨hcross, hbd, had, hbh, hah⟩

/-- Witness for the amended C1 at the startup parameters with one
execution event. -/
theorem spec_c1_witness :
    (0 : Int) < 5 ∧ (0 : Int) < 2 ∧ 1 ≤ 5 ∧ 5 ≤ 64 ∧
    (∀ e ∈ [((4 : Nat), (0 : Int), (1 : Int))], 1 ≤ e.2.2) ∧
    0 < headDepth (replay (mkBook 10000 5 2 5) [(4, 0, 1)]).bids :=
  ⟨by decide, by decide, by decide, by decide, by decide,
    (spec_c1_book_invariants 10000 2 5 5 [(4, 0, 1)] (by decide) (by decide)
      (by decide) (by decide) (by decide)).2.2.2.1⟩

/-! Embedding of qrsdp_reader.py.  Byte strings are `List Nat` with entries
below 256; little-endian integers are decoded with `leNat`; the signed i32
field with `toI32`. -/

/-- Little-endian value of a byte list (struct module "<" decoding). -/
def leNat (bs : List Nat) : Nat := bs.foldr (fun b acc => b + 256 * acc) 0

/-- Reinterpret an unsigned 32-bit value as the signed i32 it encodes. -/
def toI32 (v : Nat) : Int := if v < 2 ^ 31 then (v : Int) else (v : Int) - 2 ^ 32

/-- `bytes[off : off + len]`. -/
def slice (bs : List Nat) (off len : Nat) : List Nat := (bs.drop off).take len

/-- The magic bytes `b"QRSDPLOG"`. -/
def MAGIC : List Nat := [81, 82, 83, 68, 80, 76, 79, 71]

/-- The decoded 64-byte file header: the dict returned by `read_header`,
with the fields of `_HEADER_STRUCT` (`<8s HH I Q i I I I I I I I Q`). -/
structure Header where
  magic : List Nat
  version_major : Nat
  version_minor : Nat
  record_size : Nat
  seed : Nat
  p0_ticks : Int
  tick_size : Nat
  session_seconds : Nat
  levels_per_side : Nat
  initial_spread_ticks : Nat
  initial_depth : Nat
  chunk_capacity : Nat
  header_flags : Nat
  market_open_ns : Nat
deriving DecidableEq, Repr

/-- Unpack the 64 header bytes at their struct offsets. -/
def decodeHeader (raw : List Nat) : Header :=
  { magic := slice raw 0 8
    version_major := leNat (slice raw 8 2)
    version_minor := leNat (slice raw 10 2)
    record_size := leNat (slice raw 12 4)
    seed := leNat (slice raw 16 8)
    p0_ticks := toI32 (leNat (slice raw 24 4))
    tick_size := leNat (slice raw 28 4)
    session_seconds := leNat (slice raw 32 4)
    levels_per_side := leNat (slice raw 36 4)
    initial_spread_ticks := leNat (slice raw 40 4)
    initial_depth := leNat (slice raw 44 4)
    chunk_capacity := leNat (slice raw 48 4)
    header_flags := leNat (slice raw 52 4)
    market_open_ns := leNat (slice raw 56 8) }

/-- `read_header`: read the first 64 bytes, fail on a short read, fail on a
magic mismatch, otherwise return the decoded header dict. -/
def read_header (bytes : List Nat) : Except String Header :=
  let raw := bytes.take 64
  if raw.length < 64 then .error "file too small for header"
  else if slice raw 0 8 ≠ MAGIC then .error "bad magic"
  else .ok (decodeHeader raw)

/-- C6 (counterexample to the claim as stated): a 64-byte input with valid
magic and `record_size = 27` makes `read_header` return a decoded header
(with the bad `record_size` passed through) instead of failing with an
`UnsupportedRecordSize` error. -/
theorem spec_c6_counterexample :
    read_header ([81, 82, 83, 68, 80, 76, 79, 71] ++ [1, 0] ++ [0, 0] ++
        [27, 0, 0, 0] ++ List.replicate 48 0) =
      Except.ok
        { magic := [81, 82, 83, 68, 80, 76, 79, 71], version_major := 1,
          version_minor := 0, record_size := 27, seed := 0, p0_ticks := 0,
          tick_size := 0, session_seconds := 0, levels_per_side := 0,
          initial_spread_ticks := 0, initial_depth := 0, chunk_capacity := 0,
          header_flags := 0, market_open_ns := 0 } ∧
    (27 : Nat) ≠ 26 := by
  refine ⟨by rfl, by decide⟩

/-- C6 (amended): `read_header` validates only the length and the magic; the
`record_size` field is returned exactly as decoded, with no `record_size = 26`
check — any value, 26 or not, yields a successful result. -/
theorem spec_c6_no_record_size_validation (bytes : List Nat)
    (hlen : 64 ≤ bytes.length) (hmagic : slice (bytes.take 64) 0 8 = MAGIC) :
    read_header bytes = Except.ok (decodeHeader (bytes.take 64)) ∧
    (decodeHeader (bytes.take 64)).record_size = leNat (slice (bytes.take 64) 12 4) := by
  constructor
  · unfold read_header
    rw [if_neg, if_neg]
    · simp [hmagic]
    · have : (bytes.take 64).length = 64 := by
        simp [List.length_take]
        omega
      omega
  · rfl

/-- Witness for the amended C6 at the `record_size = 27` input. -/
theorem spec_c6_witness :
    64 ≤ ([81, 82, 83, 68, 80, 76, 79, 71] ++ [1, 0] ++ [0, 0] ++
      [27, 0, 0, 0] ++ List.replicate 48 0).length ∧
    slice (([81, 82, 83, 68, 80, 76, 79, 71] ++ [1, 0] ++ [0, 0] ++
      [27, 0, 0, 0] ++ List.replicate 48 0).take 64) 0 8 = MAGIC ∧
    read_header ([81, 82, 83, 68, 80, 76, 79, 71] ++ [1, 0] ++ [0, 0] ++
        [27, 0, 0, 0] ++ List.replicate 48 0) =
      Except.ok (decodeHeader (([81, 82, 83, 68, 80, 76, 79, 71] ++ [1, 0] ++ [0, 0] ++
        [27, 0, 0, 0] ++ List.replicate 48 0).take 64)) :=
  ⟨by decide, by decide,
    (spec_c6_no_record_size_validation _ (by decide) (by decide)).1⟩

/-- C9 (counterexample to the claim as stated): with `version_minor = 0` and
trailing bytes encoding 7, `read_header` still reports `market_open_ns = 7`:
the trailing u64 is decoded as `market_open_ns` unconditionally, not keyed
off `version_minor`. -/
theorem spec_c9_counterexample :
    read_header ([81, 82, 83, 68, 80, 76, 79, 71] ++ [1, 0] ++ [0, 0] ++
        [26, 0, 0, 0] ++ List.replicate 40 0 ++ [7, 0, 0, 0, 0, 0, 0, 0]) =
      Except.ok
        { magic := [81, 82, 83, 68, 80, 76, 79, 71], version_major := 1,
          version_minor := 0, record_size := 26, seed := 0, p0_ticks := 0,
          tick_size := 0, session_seconds := 0, levels_per_side := 0,
          initial_spread_ticks := 0, initial_depth := 0, chunk_capacity := 0,
          header_flags := 0, market_open_ns := 7 } ∧
    (7 : Nat) ≠ 0 := by
  refine ⟨by rfl, by decide⟩

/-- C9 (amended): `read_header` interprets the trailing 8 header bytes as
`market_open_ns` for every `version_minor`, including `version_minor = 0`;
no interpretation is keyed off the minor version. -/
theorem spec_c9_market_open_unconditional (bytes : List Nat)
    (hlen : 64 ≤ bytes.length) (hmagic : slice (bytes.take 64) 0 8 = MAGIC) :
    read_header bytes = Except.ok (decodeHeader (bytes.take 64)) ∧
    (decodeHeader (bytes.take 64)).market_open_ns =
      leNat (slice (bytes.take 64) 56 8) ∧
    (decodeHeader (bytes.take 64)).version_minor =
      leNat (slice (bytes.take 64) 10 2) := by
  refine ⟨?_, rfl, rfl⟩
  unfold read_header
  rw [if_neg, if_neg]
  · simp [hmagic]
  · have : (bytes.take 64).length = 64 := by
      simp [List.length_take]
      omega
    omega

/-- Witness for the amended C9 at the `version_minor = 0` input. -/
theorem spec_c9_witness :
    64 ≤ ([81, 82, 83, 68, 80, 76, 79, 71] ++ [1, 0] ++ [0, 0] ++
      [26, 0, 0, 0] ++ List.replicate 40 0 ++ [7, 0, 0, 0, 0, 0, 0, 0]).length ∧
    (decodeHeader (([81, 82, 83, 68, 80, 76, 79, 71] ++ [1, 0] ++ [0, 0] ++
      [26, 0, 0, 0] ++ List.replicate 40 0 ++ [7, 0, 0, 0, 0, 0, 0, 0]).take 64)).market_open_ns =
      leNat (slice (([81, 82, 83, 68, 80, 76, 79, 71] ++ [1, 0] ++ [0, 0] ++
        [26, 0, 0, 0] ++ List.replicate 40 0 ++ [7, 0, 0, 0, 0, 0, 0, 0]).take 64) 56 8) :=
  ⟨by decide,
    (spec_c9_market_open_unconditional _ (by decide) (by decide)).2.1⟩

/-- The decoded 32-byte chunk header (`<I I I I Q Q`). -/
structure ChunkHeader where
  uncompressed_size : Nat
  compressed_size : Nat
  record_count : Nat
  flags : Nat
  first_ts : Nat
  last_ts : Nat
deriving DecidableEq, Repr

/-- Unpack the 32 chunk-header bytes at their struct offsets. -/
def decodeChunkHeader (raw : List Nat) : ChunkHeader :=
  { uncompressed_size := leNat (slice raw 0 4)
    compressed_size := leNat (slice raw 4 4)
    record_count := leNat (slice raw 8 4)
    flags := leNat (slice raw 12 4)
    first_ts := leNat (slice raw 16 8)
    last_ts := leNat (slice raw 24 8) }

/-- One decoded 26-byte event record (`RECORD_DTYPE`). -/
structure EventRecord where
  ts_ns : Nat
  etype : Nat
  side : Nat
  price_ticks : Int
  qty : Nat
  order_id : Nat
deriving DecidableEq, Repr

/-- Decode one record at its field offsets. -/
def decodeRecord (raw : List Nat) : EventRecord :=
  { ts_ns := leNat (slice raw 0 8)
    etype := leNat (slice raw 8 1)
    side := leNat (slice raw 9 1)
    price_ticks := toI32 (leNat (slice raw 10 4))
    qty := leNat (slice raw 14 4)
    order_id := leNat (slice raw 18 8) }

/-- `np.frombuffer(..., count=record_count)` after a successful size check:
the first `count` 26-byte records of the decompressed buffer. -/
def decodeRecords (bs : List Nat) (count : Nat) : List EventRecord :=
  (List.range count).map (fun i => decodeRecord (slice bs (26 * i) 26))

/-- Result of iterating chunks: the chunks yielded so far, and whether the
generator finished cleanly or raised. -/
inductive ChunksOut where
  | clean : List (List EventRecord) → ChunksOut
  | failed : List (List EventRecord) → String → ChunksOut
deriving DecidableEq

/-- Prepend a yielded chunk to an iteration outcome. -/
def consChunk (c : List EventRecord) : ChunksOut → ChunksOut
  | .clean cs => .clean (c :: cs)
  | .failed cs e => .failed (c :: cs) e

/-- The chunk loop of `iter_chunks`, starting after the file header.
`dec payload uncompressed_size` models `lz4.block.decompress` (`none` for a
decompression error).  Terminates cleanly (`clean`) on: fewer than 32 bytes
at a chunk boundary, a zero `compressed_size`, or a short payload. -/
def chunkLoop (dec : List Nat → Nat → Option (List Nat)) (rest : List Nat) : ChunksOut :=
  if h32 : rest.length < 32 then .clean []
  else
    let ch := decodeChunkHeader (rest.take 32)
    if hcs : ch.compressed_size = 0 then .clean []
    else
      let payload := slice rest 32 ch.compressed_size
      if payload.length < ch.compressed_size then .clean []
      else
        match dec payload ch.uncompressed_size with
        | none => .failed [] "decompress error"
        | some dbytes =>
          if dbytes.length < 26 * ch.record_count then .failed [] "buffer smaller than record count"
          else consChunk (decodeRecords dbytes ch.record_count)
            (chunkLoop dec (rest.drop (32 + ch.compressed_size)))
termination_by rest.length
decreasing_by
  simp [List.length_drop]
  omega

/-- `iter_chunks`: a short file header yields nothing cleanly, a bad magic
raises, otherwise the chunk loop runs on the bytes after the header. -/
def iter_chunks (dec : List Nat → Nat → Option (List Nat)) (bytes : List Nat) : ChunksOut :=
  if bytes.length < 64 then .clean []
  else if slice bytes 0 8 ≠ MAGIC then .failed [] "bad magic"
  else chunkLoop dec (bytes.drop 64)

/-- C7: `iter_chunks` terminates cleanly — no error, all complete preceding
chunks already yielded — when fewer than 32 bytes remain at a chunk
boundary, when a chunk header carries `compressed_size = 0`, or when fewer
than `compressed_size` payload bytes remain.  The final conjunct shows a
complete chunk is yielded in front of whatever the loop produces on the
remaining bytes, so earlier chunks are preserved in every outcome. -/
theorem spec_c7_truncation_clean (dec : List Nat → Nat → Option (List Nat)) :
    (∀ bytes : List Nat, 64 ≤ bytes.length → slice bytes 0 8 = MAGIC →
      iter_chunks dec bytes = chunkLoop dec (bytes.drop 64)) ∧
    (∀ rest : List Nat, rest.length < 32 → chunkLoop dec rest = .clean []) ∧
    (∀ rest : List Nat, 32 ≤ rest.length →
      (decodeChunkHeader (rest.take 32)).compressed_size = 0 →
      chunkLoop dec rest = .clean []) ∧
    (∀ rest : List Nat, 32 ≤ rest.length →
      (decodeChunkHeader (rest.take 32)).compressed_size ≠ 0 →
      rest.length < 32 + (decodeChunkHeader (rest.take 32)).compressed_size →
      chunkLoop dec rest = .clean []) ∧
    (∀ (rest dbytes : List Nat), 32 ≤ rest.length →
      (decodeChunkHeader (rest.take 32)).compressed_size ≠ 0 →
      32 + (decodeChunkHeader (rest.take 32)).compressed_size ≤ rest.length →
      dec (slice rest 32 (decodeChunkHeader (rest.take 32)).compressed_size)
        (decodeChunkHeader (rest.take 32)).uncompressed_size = some dbytes →
      26 * (decodeChunkHeader (rest.take 32)).record_count ≤ dbytes.length →
      chunkLoop dec rest =
        consChunk (decodeRecords dbytes (decodeChunkHeader (rest.take 32)).record_count)
          (chunkLoop dec
            (rest.drop (32 + (decodeChunkHeader (rest.take 32)).compressed_size)))) := by
  refine ⟨?_, ?_, ?_, ?_, ?_⟩
  · intro bytes hlen hmagic
    unfold iter_chunks
    rw [if_neg (by omega), if_neg (by simp [hmagic])]
  · intro rest h
    unfold chunkLoop
    rw [dif_pos h]
  · intro rest hlen hcs
    unfold chunkLoop
    rw [dif_neg (by omega)]
    dsimp only
    rw [dif_pos hcs]
  · intro rest hlen hcs hshort
    unfold chunkLoop
    rw [dif_neg (by omega)]
    dsimp only
    rw [dif_neg hcs]
    have hp : (slice rest 32 (decodeChunkHeader (rest.take 32)).compressed_size).length <
        (decodeChunkHeader (rest.take 32)).compressed_size := by
      have : (slice rest 32 (decodeChunkHeader (rest.take 32)).compressed_size).length =
          min (decodeChunkHeader (rest.take 32)).compressed_size (rest.length - 32) := by
        simp [slice, List.length_take, List.length_drop]
      omega
    rw [if_pos hp]
  · intro rest dbytes hlen hcs hfull hdec hcount
    have hp : ¬ ((slice rest 32 (decodeChunkHeader (rest.take 32)).compressed_size).length <
        (decodeChunkHeader (rest.take 32)).compressed_size) := by
      have : (slice rest 32 (decodeChunkHeader (rest.take 32)).compressed_size).length =
          min (decodeChunkHeader (rest.take 32)).compressed_size (rest.length - 32) := by
        simp [slice, List.length_take, List.length_drop]
      omega
    conv =>
      lhs
      unfold chunkLoop
    rw [dif_neg (by omega)]
    dsimp only
    rw [dif_neg hcs, if_neg hp, hdec]
    dsimp only
    rw [if_neg (by omega)]

/-- Witness for C7: the parts fire on a concrete truncated input with a
trivial decompressor. -/
theorem spec_c7_witness :
    ([0, 1, 2] : List Nat).length < 32 ∧
    chunkLoop (fun _ _ => none) [0, 1, 2] = ChunksOut.clean [] :=
  ⟨by decide, (spec_c7_truncation_clean (fun _ _ => none)).2.1 [0, 1, 2] (by decide)⟩

/-! Embedding of the manifest iteration.  A date is the list of its
character code points (Python compares `str` lexicographically by code
point); `strLt` is exactly that comparison. -/

/-- Python's `<` on strings: lexicographic comparison of code points. -/
def strLt : List Nat → List Nat → Bool
  | [], [] => false
  | [], _ :: _ => true
  | _ :: _, [] => false
  | a :: as, b :: bs => if a < b then true else if b < a then false else strLt as bs

/-- Lexicographic `≤`: strictly below or equal (the spec's inclusive bound). -/
def strLe (a b : List Nat) : Bool := strLt a b || decide (a = b)

/-- One manifest session entry. -/
structure Session where
  date : List Nat
  file : String
deriving DecidableEq, Repr

/-- A manifest: v1.1 (`securities` present) or v1.0 (flat `sessions`). -/
inductive Manifest where
  | v11 : List (String × List Session) → Manifest
  | v10 : List Session → Manifest
deriving DecidableEq, Repr

/-- `_iter_sessions`: `(symbol, session)` pairs; a requested symbol filters
v1.1 securities and yields nothing from a v1.0 manifest. -/
def iterSessionPairs (m : Manifest) (symbol : Option String) : List (String × Session) :=
  match m with
  | .v11 secs =>
    (secs.map (fun sec =>
      match symbol with
      | some s => if sec.1 ≠ s then [] else sec.2.map (fun ss => (sec.1, ss))
      | none => sec.2.map (fun ss => (sec.1, ss)))).flatten
  | .v10 ss =>
    match symbol with
    | some _ => []
    | none => ss.map (fun s => ("", s))

/-- Python truthiness of an optional date string: `None` and `""` are falsy. -/
def truthyDate (o : Option (List Nat)) : Bool :=
  match o with
  | none => false
  | some s => !s.isEmpty

/-- `iter_days`: sessions joined with `read_day` (abstracted as `readDay`),
with the source's `if start_date and date < start_date: continue` /
`if end_date and date > end_date: continue` filters. -/
def iter_days {α : Type} (readDay : String → α) (m : Manifest)
    (start_date end_date : Option (List Nat)) (symbol : Option String) :
    List (List Nat × α) :=
  (iterSessionPairs m symbol).filterMap (fun p =>
    if truthyDate start_date && strLt p.2.date (start_date.getD []) then none
    else if truthyDate end_date && strLt (end_date.getD []) p.2.date then none
    else some (p.2.date, readDay p.2.file))

/-- The claim's filter, as amended: each bound applies only when given and
non-empty, inclusively. -/
def inBounds (start_date end_date : Option (List Nat)) (date : List Nat) : Bool :=
  (match start_date with
   | none => true
   | some s => s.isEmpty || strLe s date) &&
  (match end_date with
   | none => true
   | some s => s.isEmpty || strLe date s)

theorem strLe_eq_not_lt : ∀ a b : List Nat, strLe a b = !(strLt b a) := by
  intro a
  induction a with
  | nil =>
    intro b
    cases b with
    | nil => rfl
    | cons y ys => rfl
  | cons x xs ih =>
    intro b
    cases b with
    | nil => rfl
    | cons y ys =>
      by_cases h1 : x < y
      · have h2 : ¬ y < x := by omega
        simp [strLe, strLt, h1, h2]
      · by_cases h2 : y < x
        · simp [strLe, strLt, h1, h2]
          omega
        · have hxy : x = y := by omega
          subst hxy
          have hx : ¬ x < x := by omega
          simp only [strLe, strLt, if_neg hx]
          simpa [strLe] using ih ys

theorem strLt_irrefl : ∀ a : List Nat, strLt a a = false := by
  intro a
  induction a with
  | nil => rfl
  | cons x xs ih =>
    have hx : ¬ x < x := by omega
    simp only [strLt, if_neg hx]
    exact ih

theorem strLt_conn : ∀ a b : List Nat, strLt a b = false → strLt b a = false → a = b := by
  intro a
  induction a with
  | nil =>
    intro b hab hba
    cases b with
    | nil => rfl
    | cons y ys => simp [strLt] at hab
  | cons x xs ih =>
    intro b hab hba
    cases b with
    | nil => simp [strLt] at hba
    | cons y ys =>
      by_cases h1 : x < y
      · simp [strLt, h1] at hab
      · by_cases h2 : y < x
        · simp [strLt, h2] at hba
        · have hxy : x = y := by omega
          subst hxy
          have hx : ¬ x < x := by omega
          simp only [strLt, if_neg hx] at hab hba
          rw [ih ys hab hba]

theorem inBounds_eq (sd ed : Option (List Nat)) (date : List Nat) :
    inBounds sd ed date =
      (!(truthyDate sd && strLt date (sd.getD [])) &&
       !(truthyDate ed && strLt (ed.getD []) date)) := by
  cases sd with
  | none =>
    cases ed with
    | none => simp [inBounds, truthyDate]
    | some e =>
      cases he : e.isEmpty with
      | true => simp [inBounds, truthyDate, he]
      | false => simp [inBounds, truthyDate, he, strLe_eq_not_lt]
  | some s =>
    cases hs : s.isEmpty with
    | true =>
      cases ed with
      | none => simp [inBounds, truthyDate, hs]
      | some e =>
        cases he : e.isEmpty with
        | true => simp [inBounds, truthyDate, hs, he]
        | false => simp [inBounds, truthyDate, hs, he, strLe_eq_not_lt]
    | false =>
      cases ed with
      | none => simp [inBounds, truthyDate, hs, strLe_eq_not_lt]
      | some e =>
        cases he : e.isEmpty with
        | true => simp [inBounds, truthyDate, hs, he, strLe_eq_not_lt]
        | false => simp [inBounds, truthyDate, hs, he, strLe_eq_not_lt]

theorem inBounds_same (d date : List Nat) (hne : d ≠ []) :
    inBounds (some d) (some d) date = decide (date = d) := by
  have hie : d.isEmpty = false := by
    cases d with
    | nil => exact absurd rfl hne
    | cons u us => rfl
  simp only [inBounds, hie, Bool.false_or, strLe_eq_not_lt]
  by_cases h1 : strLt date d = true
  · have hne2 : date ≠ d := by
      intro heq
      subst heq
      rw [strLt_irrefl] at h1
      exact Bool.false_ne_true h1
    simp [h1, hne2]
  · by_cases h2 : strLt d date = true
    · have hne2 : date ≠ d := by
        intro heq
        subst heq
        rw [strLt_irrefl] at h2
        exact Bool.false_ne_true h2
      simp [h1, h2, hne2]
    · have heq := strLt_conn date d (by simpa using h1) (by simpa using h2)
      simp [h1, h2, heq]
      exact strLt_irrefl d

/-- C8 (counterexample to the claim as stated): with `end_date` given as the
empty string (falsy in Python), the upper bound is not applied: the session
dated "2" (code point 50) is yielded even though "2" ≤ "" is false. -/
theorem spec_c8_counterexample :
    iter_days (fun _ => (0 : Nat)) (Manifest.v10 [{ date := [50], file := "a" }])
      none (some []) none = [([50], 0)] ∧
    strLe [50] [] = false := by
  refine ⟨by rfl, by rfl⟩

/-- C8 (amended): `iter_days` yields exactly the sessions passing the
inclusive lexicographic date filter, each bound applying only when given
and non-empty (Python truthiness); consequently `start_date = end_date = d`
for non-empty `d` yields exactly the sessions dated `d`. -/
theorem spec_c8_date_filter :
    (∀ (α : Type) (readDay : String → α) (m : Manifest) (sd ed : Option (List Nat)),
      iter_days readDay m sd ed none =
        ((iterSessionPairs m none).filter (fun p => inBounds sd ed p.2.date)).map
          (fun p => (p.2.date, readDay p.2.file))) ∧
    (∀ (α : Type) (readDay : String → α) (m : Manifest) (d : List Nat), d ≠ [] →
      iter_days readDay m (some d) (some d) none =
        ((iterSessionPairs m none).filter (fun p => p.2.date = d)).map
          (fun p => (p.2.date, readDay p.2.file))) := by
  have hmain : ∀ (α : Type) (readDay : String → α) (m : Manifest)
      (sd ed : Option (List Nat)),
      iter_days readDay m sd ed none =
        ((iterSessionPairs m none).filter (fun p => inBounds sd ed p.2.date)).map
          (fun p => (p.2.date, readDay p.2.file)) := by
    intro α readDay m sd ed
    unfold iter_days
    have hfun : ∀ p : String × Session,
        (if (truthyDate sd && strLt p.2.date (sd.getD [])) = true then none
         else if (truthyDate ed && strLt (ed.getD []) p.2.date) = true then none
         else some (p.2.date, readDay p.2.file)) =
        (if inBounds sd ed p.2.date = true then some (p.2.date, readDay p.2.file)
         else none) := by
      intro p
      by_cases hA : (truthyDate sd && strLt p.2.date (sd.getD [])) = true
      · have hb : inBounds sd ed p.2.date = false := by
          rw [inBounds_eq, hA]
          simp
        rw [if_pos hA, if_neg (by rw [hb]; exact Bool.false_ne_true)]
      · by_cases hB : (truthyDate ed && strLt (ed.getD []) p.2.date) = true
        · have hb : inBounds sd ed p.2.date = false := by
            rw [inBounds_eq, hB]
            simp
          rw [if_neg hA, if_pos hB, if_neg (by rw [hb]; exact Bool.false_ne_true)]
        · have hb : inBounds sd ed p.2.date = true := by
            rw [inBounds_eq]
            simp [hA, hB]
          rw [if_neg hA, if_neg hB, if_pos hb]
    generalize iterSessionPairs m none = ps
    induction ps with
    | nil => rfl
    | cons p ps ih =>
      rw [List.filterMap_cons, List.filter_cons, hfun p]
      by_cases hb : inBounds sd ed p.2.date = true
      · rw [if_pos hb]
        dsimp only
        rw [if_pos hb, List.map_cons, ih]
      · rw [if_neg hb, if_neg hb]
        dsimp only
        exact ih
  refine ⟨hmain, ?_⟩
  intro α readDay m d hne
  rw [hmain α readDay m (some d) (some d)]
  congr 1
  apply List.filter_congr
  intro p _
  rw [inBounds_same _ _ hne]

/-- Witness for the amended C8: a two-session v1.0 manifest filtered to one
date. -/
theorem spec_c8_witness :
    ([50] : List Nat) ≠ [] ∧
    iter_days (fun _ => (0 : Nat))
      (Manifest.v10 [{ date := [49], file := "a" }, { date := [50], file := "b" }])
      (some [50]) (some [50]) none = [([50], 0)] := by
  refine ⟨by decide, ?_⟩
  rw [spec_c8_date_filter.2 Nat (fun _ => (0 : Nat))
    (Manifest.v10 [{ date := [49], file := "a" }, { date := [50], file := "b" }])
    [50] (by decide)]
  rfl

end QRSDP
